import Mathlib

/-!
Shallow embedding of the deletion engine of `discord-message-cleaner.js`
(functions `cleanMessages`, lines 115-152, and `cleanUntilMessage`,
lines 155-249) together with proofs of the specification claims.

Platform calls (`channel.messages.fetch`, `channel.bulkDelete`,
`message.delete`) are modelled through an environment `Env` that decides,
per call, whether the call throws, and a state `S` that carries the
channel contents, the trace of issued platform calls and the counters the
source maintains.  Exceptions of the source are modelled with `Except`,
the enclosing `try/catch` blocks by the top-level `match` in
`cleanMessages` / `cleanUntilMessage`.
-/

namespace DiscordCleaner

/-- Message of the platform: snowflake identifier (numeric, assigned in
increasing order over time) and creation timestamp in milliseconds
(`msg.createdTimestamp` of the source). -/
structure Message where
  id : Nat
  createdTimestamp : Int
deriving DecidableEq, Repr

/-- Platform call issued by the engine, as recorded in the trace:
a history fetch (with its limit, its `before` cursor and the returned
page, `none` when the fetch threw), a bulk delete (`channel.bulkDelete`)
with the messages passed to it, or an individual delete (`msg.delete`).
The `ok` flag records whether the call succeeded. -/
inductive Event where
  | fetch (limit : Nat) (before : Option Nat) (result : Option (List Message))
  | bulk (msgs : List Message) (ok : Bool)
  | single (m : Message) (ok : Bool)
deriving DecidableEq, Repr

/-- Behaviour of the platform during one invocation: whether the k-th
fetch throws, whether the k-th bulk delete throws, whether the individual
delete of a given message throws, and the number of deletions the
platform would report for a bulk call (`channel.bulkDelete`'s return
value, which the source ignores). -/
structure Env where
  failFetch : Nat → Bool
  failBulk : Nat → Bool
  failSingle : Message → Bool
  bulkReport : List Message → Nat

/-- Fault-free platform behaviour. -/
def envOK : Env :=
  ⟨fun _ => false, fun _ => false, fun _ => false, fun l => l.length⟩

/-- Platform behaviour whose every fetch throws. -/
def envBadFetch : Env :=
  ⟨fun _ => true, fun _ => false, fun _ => false, fun l => l.length⟩

/-- Platform behaviour where the individual delete of the message with
identifier 2 throws and everything else succeeds. -/
def envFail2 : Env :=
  ⟨fun _ => false, fun _ => false, fun m => m.id == 2, fun l => l.length⟩

/-- Engine state: current channel contents (newest first, the order the
platform keeps), trace of issued platform calls, the `deletedCount`
accumulator of the source, and counters numbering the fetch and bulk
calls so `Env` can address them. -/
structure S where
  chan : List Message
  trace : List Event
  deletedCount : Nat
  fetchCount : Nat
  bulkCount : Nat
deriving Repr

/-- Initial state of one invocation. -/
def initS (chan : List Message) : S :=
  ⟨chan, [], 0, 0, 0⟩

/-- Bulk-delete age window: `14 * 24 * 60 * 60 * 1000` milliseconds
(lines 121, 185, 212 of the source). -/
def twoWeeksMs : Int := 14 * 24 * 60 * 60 * 1000

/-- Result of `channel.messages.fetch({limit, before?})`: the platform
returns the newest `limit` messages strictly older (smaller id) than the
`before` cursor, newest first. -/
def fetchPage (chan : List Message) (limit : Nat) (before : Option Nat) :
    List Message :=
  match before with
  | none => chan.take limit
  | some b => (chan.filter (fun m => decide (m.id < b))).take limit

/-- Issue a fetch: record the call, advance the fetch counter, throw when
the environment says so. -/
def doFetch (env : Env) (limit : Nat) (before : Option Nat) (s : S) :
    Except S (List Message × S) :=
  let page := fetchPage s.chan limit before
  if env.failFetch s.fetchCount then
    .error { s with trace := s.trace ++ [.fetch limit before none],
                    fetchCount := s.fetchCount + 1 }
  else
    .ok (page, { s with trace := s.trace ++ [.fetch limit before (some page)],
                        fetchCount := s.fetchCount + 1 })

/-- Remove the messages with the given identifiers from the channel. -/
def removeIds (ids : List Nat) (chan : List Message) : List Message :=
  chan.filter (fun m => !(ids.contains m.id))

/-- Issue `channel.bulkDelete(msgs, true)`: record the call, throw when
the environment says so, otherwise remove the messages and add the FULL
size of `msgs` to `deletedCount` (line 130 / 192 / 219 of the source adds
`recentMessages.size`; the platform's own report, `Env.bulkReport`, is
ignored exactly as the source ignores `bulkDelete`'s return value). -/
def doBulk (env : Env) (msgs : List Message) (s : S) : Except S S :=
  if env.failBulk s.bulkCount then
    .error { s with trace := s.trace ++ [.bulk msgs false],
                    bulkCount := s.bulkCount + 1 }
  else
    .ok { s with chan := removeIds (msgs.map Message.id) s.chan,
                 trace := s.trace ++ [.bulk msgs true],
                 deletedCount := s.deletedCount + msgs.length,
                 bulkCount := s.bulkCount + 1 }

/-- Issue `msg.delete()` inside the per-item `try/catch` of the source
(lines 134-144, 196-206, 223-233): a failure is caught locally, logged
and skipped, so the call never throws outward; a success removes the
message and increments `deletedCount`. -/
def doSingle (env : Env) (m : Message) (s : S) : S :=
  if env.failSingle m then
    { s with trace := s.trace ++ [.single m false] }
  else
    { s with chan := s.chan.filter (fun x => !(x.id == m.id)),
             trace := s.trace ++ [.single m true],
             deletedCount := s.deletedCount + 1 }

/-- Loop `for (const msg of oldMessages.values()) { try { await msg.delete() ... } }`. -/
def deleteOld (env : Env) (msgs : List Message) (s : S) : S :=
  match msgs with
  | [] => s
  | m :: rest => deleteOld env rest (doSingle env m s)

/-- Predicate of the `recentMessages` filter:
`msg.createdTimestamp > twoWeeksAgo` where `twoWeeksAgo = now - twoWeeksMs`. -/
def isRecent (now : Int) (m : Message) : Bool :=
  decide (now - twoWeeksMs < m.createdTimestamp)

/-- Predicate of the `oldMessages` filter: `msg.createdTimestamp <= twoWeeksAgo`. -/
def isAged (now : Int) (m : Message) : Bool :=
  decide (m.createdTimestamp ≤ now - twoWeeksMs)

/-- Partition-and-delete pass shared by the three sites of the source
(lines 121-144 of `cleanMessages`, lines 185-207 and 212-233 of
`cleanUntilMessage`, which are textually identical logic): split the
given messages by the age cutoff, bulk delete the recent bucket when
non-empty, then delete the aged bucket one by one. -/
def partitionAndDelete (env : Env) (now : Int) (msgs : List Message) (s : S) :
    Except S S :=
  let recentMessages := msgs.filter (isRecent now)
  let oldMessages := msgs.filter (isAged now)
  match (if recentMessages.length > 0 then doBulk env recentMessages s else .ok s) with
  | .error s₂ => .error s₂
  | .ok s₂ => .ok (deleteOld env oldMessages s₂)

/-- Response delivered to `responseCallback` by `cleanMessages`: the
success message with its count, or the catch-all error message. -/
inductive CleanResponse where
  | cleaned (deletedCount : Nat)
  | errored
deriving DecidableEq, Repr

/-- Body of `cleanMessages` inside its `try` (lines 117-147): fetch up to
`amount` most recent messages, then partition and delete. -/
def cleanMessagesBody (env : Env) (now : Int) (amount : Nat) (s : S) :
    Except S S :=
  match doFetch env amount none s with
  | .error s₂ => .error s₂
  | .ok (fetchedMessages, s₂) => partitionAndDelete env now fetchedMessages s₂

/-- Operation `cleanMessages(channel, amount, responseCallback)`
(spec name `deleteRecentMessages`), lines 115-152: the surrounding
`try/catch` turns a thrown platform error into the error response. -/
def cleanMessages (env : Env) (now : Int) (chan : List Message)
    (amount : Nat) : CleanResponse × S :=
  match cleanMessagesBody env now amount (initS chan) with
  | .ok s => (.cleaned s.deletedCount, s)
  | .error s => (.errored, s)

/-- Response delivered by `cleanUntilMessage`: the completion message
(count and `targetFound`), the catch-all error message, or the fuel
exhaustion marker of the embedding (proved unreachable, see
`cleanUntilLoop_fuel`). -/
inductive UntilResponse where
  | done (deletedCount : Nat) (targetFound : Bool)
  | errored
  | outOfFuel
deriving DecidableEq, Repr

/-- Identifier of `messages.last()`: the oldest message of a fetched page
(pages are newest first; `0` on an empty page, a case the source never
reads it in). -/
def lastId (page : List Message) : Nat :=
  ((page.getLast?).map Message.id).getD 0

/-- Pagination loop of `cleanUntilMessage` (lines 162-237), with fuel
making the recursion structural; `cleanUntilMessage` supplies enough fuel
(see `cleanUntilLoop_fuel`).  Each iteration fetches up to 100 messages
before the cursor, stops on an empty page, advances the cursor to the
oldest identifier of the page, and either (target present) deletes the
strictly-newer-than-target subset of the page and stops, or (target
absent) deletes the whole page and continues. -/
def cleanUntilLoop (env : Env) (now : Int) (tid : Nat) :
    Nat → Option Nat → S → Option (Except S (Bool × S))
  | 0, _, _ => none
  | fuel + 1, before, s =>
    match doFetch env 100 before s with
    | .error s₂ => some (.error s₂)
    | .ok (messages, s₂) =>
      if messages.length = 0 then some (.ok (false, s₂))
      else
        let lastMessageId := lastId messages
        if messages.any (fun m => m.id == tid) then
          let targetMsg := (messages.find? (fun m => m.id == tid)).getD ⟨0, 0⟩
          let toDelete := messages.filter (fun m =>
            !(m.id == tid) && decide (targetMsg.createdTimestamp < m.createdTimestamp))
          if toDelete.length > 0 then
            match partitionAndDelete env now toDelete s₂ with
            | .error s₃ => some (.error s₃)
            | .ok s₃ => some (.ok (true, s₃))
          else some (.ok (true, s₂))
        else
          match partitionAndDelete env now messages s₂ with
          | .error s₃ => some (.error s₃)
          | .ok s₃ => cleanUntilLoop env now tid fuel (some lastMessageId) s₃

/-- Operation `cleanUntilMessage(channel, targetMessageId, responseCallback)`
(spec name `deleteUntilMessage`), lines 155-249: run the pagination loop
with sufficient fuel; the surrounding `try/catch` turns a thrown platform
error into the error response. -/
def cleanUntilMessage (env : Env) (now : Int) (chan : List Message)
    (tid : Nat) : UntilResponse × S :=
  let s₀ := initS chan
  match cleanUntilLoop env now tid (chan.length + 1) none s₀ with
  | none => (.outOfFuel, s₀)
  | some (.error s) => (.errored, s)
  | some (.ok (found, s)) => (.done s.deletedCount found, s)

/-- Messages passed to any delete call (bulk or individual) of a trace. -/
def deletesOf : List Event → List Message
  | [] => []
  | .bulk msgs _ :: tr => msgs ++ deletesOf tr
  | .single m _ :: tr => m :: deletesOf tr
  | .fetch _ _ _ :: tr => deletesOf tr

/-- Messages passed to the individual delete calls of a trace, in order. -/
def singlesOf : List Event → List Message
  | [] => []
  | .single m _ :: tr => m :: singlesOf tr
  | .bulk _ _ :: tr => singlesOf tr
  | .fetch _ _ _ :: tr => singlesOf tr

/-- Argument lists of the bulk delete calls of a trace, in order. -/
def bulksOf : List Event → List (List Message)
  | [] => []
  | .bulk msgs _ :: tr => msgs :: bulksOf tr
  | .single _ _ :: tr => bulksOf tr
  | .fetch _ _ _ :: tr => bulksOf tr

/-- Cursor and returned page of each fetch call of a trace, in order. -/
def fetchSeq : List Event → List (Option Nat × Option (List Message))
  | [] => []
  | .fetch _ b r :: tr => (b, r) :: fetchSeq tr
  | .bulk _ _ :: tr => fetchSeq tr
  | .single _ _ :: tr => fetchSeq tr

/-- Well-formed channel history: newest first, identifiers strictly
decreasing and creation timestamps weakly decreasing (snowflake
identifiers grow over time, several messages may share a millisecond). -/
def Ordered (l : List Message) : Prop :=
  l.Pairwise (fun a b => b.id < a.id ∧ b.createdTimestamp ≤ a.createdTimestamp)

instance (l : List Message) : Decidable (Ordered l) := by
  unfold Ordered
  infer_instance

/-- Messages below a cursor, as `fetchPage` selects them. -/
def belowFilter (before : Option Nat) (chan : List Message) : List Message :=
  match before with
  | none => chan
  | some b => chan.filter (fun m => decide (m.id < b))

/-- Channel history of 101 messages, identifiers 101 down to 1, where the
two oldest messages (identifiers 2 and 1) were created in the same
millisecond: creation timestamps 101, 100, ..., 3, 2, 2.  It is a
well-formed history (identifiers strictly increase over time, timestamps
weakly), the first fetched page holds identifiers 101..2 and the second
page holds the single message 1. -/
def tieHistory : List Message :=
  (List.range 101).map
    (fun k => ⟨101 - k, if k = 100 then 2 else ((101 : Int) - (k : Int))⟩)

/-- State carried by either outcome of a fallible step. -/
def stateOf : Except S S → S
  | .ok s => s
  | .error s => s

/-- Messages with identifier strictly below a cursor value. -/
def lowFilter (b : Nat) (l : List Message) : List Message :=
  l.filter (fun m => decide (m.id < b))

/-- Relation between two consecutive fetch calls of a trace: the earlier
fetch returned a non-empty page and the later fetch's `before` cursor is
exactly the identifier of the oldest message of that page. -/
def fetchStep (x y : Option Nat × Option (List Message)) : Prop :=
  ∃ p, x.2 = some p ∧ p ≠ [] ∧ y.1 = some (lastId p)

/-- Age discipline of one platform call: a bulk delete only carries
messages strictly inside the 14-day window, an individual delete only
carries messages at or beyond it. -/
def eventAgeOK (now : Int) : Event → Prop
  | .bulk msgs _ => ∀ m ∈ msgs, now - twoWeeksMs < m.createdTimestamp
  | .single m _ => m.createdTimestamp ≤ now - twoWeeksMs
  | .fetch _ _ _ => True

/-! ### Trace projection lemmas -/

theorem deletesOf_append (t₁ t₂ : List Event) :
    deletesOf (t₁ ++ t₂) = deletesOf t₁ ++ deletesOf t₂ := by
  induction t₁ with
  | nil => rfl
  | cons e tl ih => cases e <;> simp [deletesOf, ih]

theorem singlesOf_append (t₁ t₂ : List Event) :
    singlesOf (t₁ ++ t₂) = singlesOf t₁ ++ singlesOf t₂ := by
  induction t₁ with
  | nil => rfl
  | cons e tl ih => cases e <;> simp [singlesOf, ih]

theorem bulksOf_append (t₁ t₂ : List Event) :
    bulksOf (t₁ ++ t₂) = bulksOf t₁ ++ bulksOf t₂ := by
  induction t₁ with
  | nil => rfl
  | cons e tl ih => cases e <;> simp [bulksOf, ih]

theorem fetchSeq_append (t₁ t₂ : List Event) :
    fetchSeq (t₁ ++ t₂) = fetchSeq t₁ ++ fetchSeq t₂ := by
  induction t₁ with
  | nil => rfl
  | cons e tl ih => cases e <;> simp [fetchSeq, ih]

theorem singlesOf_map_single (msgs : List Message) (f : Message → Bool) :
    singlesOf (msgs.map (fun m => Event.single m (f m))) = msgs := by
  induction msgs with
  | nil => rfl
  | cons m tl ih => simp [singlesOf, ih]

theorem deletesOf_map_single (msgs : List Message) (f : Message → Bool) :
    deletesOf (msgs.map (fun m => Event.single m (f m))) = msgs := by
  induction msgs with
  | nil => rfl
  | cons m tl ih => simp [deletesOf, ih]

theorem bulksOf_map_single (msgs : List Message) (f : Message → Bool) :
    bulksOf (msgs.map (fun m => Event.single m (f m))) = [] := by
  induction msgs with
  | nil => rfl
  | cons m tl ih => simp [bulksOf, ih]

theorem fetchSeq_map_single (msgs : List Message) (f : Message → Bool) :
    fetchSeq (msgs.map (fun m => Event.single m (f m))) = [] := by
  induction msgs with
  | nil => rfl
  | cons m tl ih => simp [fetchSeq, ih]

/-! ### General list lemmas -/

theorem length_filter_lt {α : Type} (l : List α) (p : α → Bool) (x : α)
    (h : x ∈ l) (hx : p x = false) : (l.filter p).length < l.length := by
  induction l with
  | nil => cases h
  | cons a tl ih =>
    rcases List.mem_cons.mp h with rfl | hm
    · simp only [List.filter_cons, hx, List.length_cons]
      exact Nat.lt_succ_of_le (List.length_filter_le ..)
    · by_cases hp : p a = true
      · simpa [List.filter_cons, hp] using ih hm
      · simp only [Bool.not_eq_true] at hp
        simp only [List.filter_cons, hp, List.length_cons]
        exact Nat.lt_succ_of_lt (ih hm)

theorem length_filter_imp {α : Type} (l : List α) (p q : α → Bool)
    (h : ∀ a, p a = true → q a = true) :
    (l.filter p).length ≤ (l.filter q).length := by
  induction l with
  | nil => exact Nat.le_refl 0
  | cons a tl ih =>
    by_cases hp : p a = true
    · simp only [List.filter_cons, hp, h a hp, List.length_cons]
      exact Nat.succ_le_succ ih
    · simp only [Bool.not_eq_true] at hp
      simp only [List.filter_cons, hp]
      by_cases hq : q a = true
      · simp only [hq, List.length_cons]
        exact Nat.le_succ_of_le ih
      · simp only [Bool.not_eq_true] at hq
        simp only [hq]
        exact ih

theorem pairwise_mem_rel {α : Type} {R : α → α → Prop} {l : List α} {a b : α}
    (hp : l.Pairwise R) (ha : a ∈ l) (hb : b ∈ l) :
    a = b ∨ R a b ∨ R b a := by
  induction l with
  | nil => cases ha
  | cons x tl ih =>
    rcases List.pairwise_cons.mp hp with ⟨hx, htl⟩
    rcases List.mem_cons.mp ha with rfl | ha₂
    · rcases List.mem_cons.mp hb with rfl | hb₂
      · exact Or.inl rfl
      · exact Or.inr (Or.inl (hx b hb₂))
    · rcases List.mem_cons.mp hb with rfl | hb₂
      · exact Or.inr (Or.inr (hx a ha₂))
      · exact ih htl ha₂ hb₂

/-! ### Age partition lemmas -/

theorem isAged_eq_not_isRecent (now : Int) (m : Message) :
    isAged now m = !(isRecent now m) := by
  unfold isAged isRecent
  by_cases h : m.createdTimestamp ≤ now - twoWeeksMs
  · simp [h, Int.not_lt.mpr h]
  · simp [h, Int.not_le.mp h]

theorem length_recent_add_aged (now : Int) (l : List Message) :
    (l.filter (isRecent now)).length + (l.filter (isAged now)).length = l.length := by
  have h := List.length_eq_length_filter_add (l := l) (isRecent now)
  have he : l.filter (fun a => !(isRecent now a)) = l.filter (isAged now) := by
    apply List.filter_congr
    intro a _
    exact (isAged_eq_not_isRecent now a).symm
  rw [he] at h
  exact h.symm

theorem mem_recent_iff (now : Int) (l : List Message) (m : Message) :
    m ∈ l.filter (isRecent now) ↔ m ∈ l ∧ now - twoWeeksMs < m.createdTimestamp := by
  simp [List.mem_filter, isRecent]

theorem mem_aged_iff (now : Int) (l : List Message) (m : Message) :
    m ∈ l.filter (isAged now) ↔ m ∈ l ∧ m.createdTimestamp ≤ now - twoWeeksMs := by
  simp [List.mem_filter, isAged]

/-! ### Characterization of the platform operations -/

theorem belowFilter_some (b : Nat) (l : List Message) :
    belowFilter (some b) l = lowFilter b l := rfl

theorem fetchPage_eq (chan : List Message) (limit : Nat) (before : Option Nat) :
    fetchPage chan limit before = (belowFilter before chan).take limit := by
  cases before <;> rfl

theorem doSingle_trace (env : Env) (m : Message) (s : S) :
    (doSingle env m s).trace = s.trace ++ [.single m (!env.failSingle m)] := by
  unfold doSingle
  by_cases h : env.failSingle m = true <;> simp [h]

theorem doSingle_count (env : Env) (m : Message) (s : S) :
    (doSingle env m s).deletedCount
      = s.deletedCount + (if env.failSingle m then 0 else 1) := by
  unfold doSingle
  by_cases h : env.failSingle m = true <;> simp [h]

theorem doSingle_chan_filter (env : Env) (m : Message) (s : S) :
    ∃ p, (doSingle env m s).chan = s.chan.filter p := by
  unfold doSingle
  by_cases h : env.failSingle m = true
  · exact ⟨fun _ => true, by simp [h]⟩
  · exact ⟨fun x => !(x.id == m.id), by simp [h]⟩

theorem doSingle_chanLow (env : Env) (m : Message) (s : S) (b : Nat)
    (hb : b ≤ m.id) :
    lowFilter b (doSingle env m s).chan = lowFilter b s.chan := by
  unfold doSingle
  by_cases h : env.failSingle m = true
  · simp [h]
  · simp only [h, Bool.false_eq_true, if_false, lowFilter, List.filter_filter]
    apply List.filter_congr
    intro a _
    by_cases ha : a.id < b
    · have : a.id ≠ m.id := Nat.ne_of_lt (Nat.lt_of_lt_of_le ha hb)
      simp [ha, this]
    · simp [ha]

theorem deleteOld_trace (env : Env) (msgs : List Message) (s : S) :
    (deleteOld env msgs s).trace
      = s.trace ++ msgs.map (fun m => Event.single m (!env.failSingle m)) := by
  induction msgs generalizing s with
  | nil => simp [deleteOld]
  | cons m tl ih =>
    simp [deleteOld, ih, doSingle_trace]

theorem deleteOld_count (env : Env) (msgs : List Message) (s : S) :
    (deleteOld env msgs s).deletedCount
      = s.deletedCount + (msgs.filter (fun m => !env.failSingle m)).length := by
  induction msgs generalizing s with
  | nil => simp [deleteOld]
  | cons m tl ih =>
    simp only [deleteOld, ih, doSingle_count, List.filter_cons]
    by_cases h : env.failSingle m = true
    · simp [h]
    · simp only [Bool.not_eq_true] at h
      simp [h, Nat.add_assoc, Nat.add_comm 1]

theorem deleteOld_chan_filter (env : Env) (msgs : List Message) (s : S) :
    ∃ p, (deleteOld env msgs s).chan = s.chan.filter p := by
  induction msgs generalizing s with
  | nil => exact ⟨fun _ => true, by simp [deleteOld]⟩
  | cons m tl ih =>
    obtain ⟨p, hp⟩ := ih (doSingle env m s)
    obtain ⟨q, hq⟩ := doSingle_chan_filter env m s
    refine ⟨fun a => p a && q a, ?_⟩
    simp [deleteOld, hp, hq, List.filter_filter]

theorem deleteOld_chanLow (env : Env) (msgs : List Message) (s : S) (b : Nat)
    (hb : ∀ m ∈ msgs, b ≤ m.id) :
    lowFilter b (deleteOld env msgs s).chan = lowFilter b s.chan := by
  induction msgs generalizing s with
  | nil => simp [deleteOld]
  | cons m tl ih =>
    simp only [deleteOld]
    rw [ih (doSingle env m s) (fun x hx => hb x (List.mem_cons_of_mem m hx)),
      doSingle_chanLow env m s b (hb m (List.mem_cons_self ..))]

theorem removeIds_chanLow (ids : List Nat) (chan : List Message) (b : Nat)
    (hb : ∀ i ∈ ids, b ≤ i) :
    lowFilter b (removeIds ids chan) = lowFilter b chan := by
  unfold removeIds lowFilter
  rw [List.filter_filter]
  apply List.filter_congr
  intro a _
  by_cases ha : a.id < b
  · have : a.id ∉ ids := fun hmem => Nat.not_lt.mpr (hb a.id hmem) ha
    simp [ha, this]
  · simp [ha]

theorem doBulk_ok (env : Env) (msgs : List Message) (s : S)
    (h : env.failBulk s.bulkCount = false) :
    doBulk env msgs s
      = .ok { s with chan := removeIds (msgs.map Message.id) s.chan,
                     trace := s.trace ++ [.bulk msgs true],
                     deletedCount := s.deletedCount + msgs.length,
                     bulkCount := s.bulkCount + 1 } := by
  simp [doBulk, h]

theorem doBulk_err (env : Env) (msgs : List Message) (s : S)
    (h : env.failBulk s.bulkCount = true) :
    doBulk env msgs s
      = .error { s with trace := s.trace ++ [.bulk msgs false],
                        bulkCount := s.bulkCount + 1 } := by
  simp [doBulk, h]

/-- Full description of one partition-and-delete pass: either the pass
runs to completion (bulk call, when the recent bucket is non-empty,
succeeded or was skipped) and the trace gains the bulk call followed by
one individual delete per aged message while `deletedCount` gains the
full recent-bucket size plus the successful individual deletes, or the
bulk call threw and the trace gains only the failed bulk call. -/
theorem panD_result (env : Env) (now : Int) (msgs : List Message) (s : S) :
    (∃ s₂, partitionAndDelete env now msgs s = .ok s₂ ∧
       s₂.trace = s.trace
         ++ (if 0 < (msgs.filter (isRecent now)).length
             then [Event.bulk (msgs.filter (isRecent now)) true] else [])
         ++ (msgs.filter (isAged now)).map
              (fun m => Event.single m (!env.failSingle m)) ∧
       s₂.deletedCount = s.deletedCount + (msgs.filter (isRecent now)).length
         + ((msgs.filter (isAged now)).filter
              (fun m => !env.failSingle m)).length) ∨
    (0 < (msgs.filter (isRecent now)).length ∧
     env.failBulk s.bulkCount = true ∧
     partitionAndDelete env now msgs s
       = .error { s with
           trace := s.trace ++ [Event.bulk (msgs.filter (isRecent now)) false],
           bulkCount := s.bulkCount + 1 }) := by
  by_cases hr : 0 < (msgs.filter (isRecent now)).length
  · by_cases hbk : env.failBulk s.bulkCount = true
    · right
      refine ⟨hr, hbk, ?_⟩
      simp [partitionAndDelete, hr, doBulk_err env _ s hbk]
    · left
      simp only [Bool.not_eq_true] at hbk
      have hstep : partitionAndDelete env now msgs s
          = .ok (deleteOld env (msgs.filter (isAged now))
              { s with chan := removeIds ((msgs.filter (isRecent now)).map Message.id) s.chan,
                       trace := s.trace ++ [.bulk (msgs.filter (isRecent now)) true],
                       deletedCount := s.deletedCount + (msgs.filter (isRecent now)).length,
                       bulkCount := s.bulkCount + 1 }) := by
        simp [partitionAndDelete, hr, doBulk_ok env _ s hbk]
      refine ⟨_, hstep, ?_, ?_⟩
      · rw [deleteOld_trace]
        simp [hr, List.append_assoc]
      · rw [deleteOld_count]
  · left
    have hstep : partitionAndDelete env now msgs s
        = .ok (deleteOld env (msgs.filter (isAged now)) s) := by
      simp [partitionAndDelete, hr]
    refine ⟨_, hstep, ?_, ?_⟩
    · rw [deleteOld_trace]
      simp [hr]
    · rw [deleteOld_count]
      have h0 : (msgs.filter (isRecent now)).length = 0 := Nat.eq_zero_of_not_pos hr
      simp [h0]

theorem panD_chanLow (env : Env) (now : Int) (msgs : List Message) (s : S)
    (b : Nat) (hb : ∀ m ∈ msgs, b ≤ m.id) :
    lowFilter b (stateOf (partitionAndDelete env now msgs s)).chan
      = lowFilter b s.chan := by
  by_cases hr : 0 < (msgs.filter (isRecent now)).length
  · by_cases hbk : env.failBulk s.bulkCount = true
    · simp [partitionAndDelete, hr, doBulk_err env _ s hbk, stateOf]
    · simp only [Bool.not_eq_true] at hbk
      simp only [partitionAndDelete, hr, if_true, doBulk_ok env _ s hbk, stateOf]
      rw [deleteOld_chanLow]
      · exact removeIds_chanLow _ _ _ (by
          intro i hi
          simp only [List.mem_map] at hi
          obtain ⟨m, hm, rfl⟩ := hi
          exact hb m (List.mem_of_mem_filter hm))
      · intro m hm
        exact hb m (List.mem_of_mem_filter hm)
  · simp only [partitionAndDelete, hr, if_false, stateOf]
    rw [deleteOld_chanLow]
    intro m hm
    exact hb m (List.mem_of_mem_filter hm)

theorem panD_chan_filter (env : Env) (now : Int) (msgs : List Message) (s : S) :
    ∃ p, (stateOf (partitionAndDelete env now msgs s)).chan = s.chan.filter p := by
  by_cases hr : 0 < (msgs.filter (isRecent now)).length
  · by_cases hbk : env.failBulk s.bulkCount = true
    · exact ⟨fun _ => true, by simp [partitionAndDelete, hr, doBulk_err env _ s hbk, stateOf]⟩
    · simp only [Bool.not_eq_true] at hbk
      obtain ⟨p, hp⟩ := deleteOld_chan_filter env (msgs.filter (isAged now))
        { s with chan := removeIds ((msgs.filter (isRecent now)).map Message.id) s.chan,
                 trace := s.trace ++ [.bulk (msgs.filter (isRecent now)) true],
                 deletedCount := s.deletedCount + (msgs.filter (isRecent now)).length,
                 bulkCount := s.bulkCount + 1 }
      refine ⟨fun a => p a && !(((msgs.filter (isRecent now)).map Message.id).contains a.id), ?_⟩
      simp only [partitionAndDelete, hr, if_true, doBulk_ok env _ s hbk, stateOf]
      rw [hp]
      simp [removeIds, List.filter_filter]
  · simp only [partitionAndDelete, hr, if_false, stateOf]
    exact deleteOld_chan_filter env _ s

theorem panD_trace_extend (env : Env) (now : Int) (msgs : List Message) (s : S) :
    ∃ Δ, (stateOf (partitionAndDelete env now msgs s)).trace = s.trace ++ Δ ∧
      fetchSeq Δ = [] := by
  rcases panD_result env now msgs s with ⟨s₂, hok, htr, _⟩ | ⟨hr, hbk, herr⟩
  · refine ⟨_, by rw [hok, stateOf, htr, List.append_assoc], ?_⟩
    rw [fetchSeq_append, fetchSeq_map_single]
    by_cases h : 0 < (msgs.filter (isRecent now)).length <;> simp [h, fetchSeq]
  · exact ⟨_, by rw [herr, stateOf], by simp [fetchSeq]⟩

/-- Every event a partition-and-delete pass appends is a bulk call on the
recent bucket or an individual delete of an aged message. -/
theorem panD_events (env : Env) (now : Int) (msgs : List Message) (s : S)
    (P : Event → Prop)
    (hb : ∀ ok, P (.bulk (msgs.filter (isRecent now)) ok))
    (hs : ∀ m ∈ msgs.filter (isAged now), ∀ ok, P (.single m ok))
    (h0 : ∀ e ∈ s.trace, P e) :
    ∀ e ∈ (stateOf (partitionAndDelete env now msgs s)).trace, P e := by
  rcases panD_result env now msgs s with ⟨s₂, hok, htr, _⟩ | ⟨hr, hbk, herr⟩
  · rw [hok, stateOf, htr]
    intro e he
    rcases List.mem_append.mp he with he₁ | hemap
    · rcases List.mem_append.mp he₁ with he₂ | heb
      · exact h0 e he₂
      · by_cases h : 0 < (msgs.filter (isRecent now)).length
        · simp only [h, if_true, List.mem_singleton] at heb
          subst heb
          exact hb true
        · simp [h] at heb
    · simp only [List.mem_map] at hemap
      obtain ⟨m, hm, rfl⟩ := hemap
      exact hs m hm _
  · rw [herr, stateOf]
    intro e he
    rcases List.mem_append.mp he with he₂ | heb
    · exact h0 e he₂
    · simp only [List.mem_singleton] at heb
      subst heb
      exact hb false

theorem doFetch_ok (env : Env) (limit : Nat) (before : Option Nat) (s : S)
    (h : env.failFetch s.fetchCount = false) :
    doFetch env limit before s
      = .ok (fetchPage s.chan limit before,
          { s with trace := s.trace
                     ++ [.fetch limit before (some (fetchPage s.chan limit before))],
                   fetchCount := s.fetchCount + 1 }) := by
  simp [doFetch, h]

theorem doFetch_err (env : Env) (limit : Nat) (before : Option Nat) (s : S)
    (h : env.failFetch s.fetchCount = true) :
    doFetch env limit before s
      = .error { s with trace := s.trace ++ [.fetch limit before none],
                        fetchCount := s.fetchCount + 1 } := by
  simp [doFetch, h]

/-! ### Page and cursor lemmas -/

theorem lastId_eq (page : List Message) (h : page ≠ []) :
    lastId page = (page.getLast h).id := by
  simp [lastId, List.getLast?_eq_getLast page h]

theorem lastId_mem (page : List Message) (h : page ≠ []) :
    ∃ m ∈ page, m.id = lastId page :=
  ⟨page.getLast h, List.getLast_mem h, (lastId_eq page h).symm⟩

theorem lastId_min (page : List Message) (ho : Ordered page) :
    ∀ m ∈ page, lastId page ≤ m.id := by
  induction page with
  | nil => intro m hm; cases hm
  | cons a tl ih =>
    intro m hm
    cases tl with
    | nil =>
      rcases List.mem_singleton.mp hm with rfl
      simp [lastId, List.getLast?]
    | cons x tl₂ =>
      have hlast : lastId (a :: x :: tl₂) = lastId (x :: tl₂) := by
        simp [lastId, List.getLast?_cons_cons]
      rcases List.pairwise_cons.mp ho with ⟨ha, ho₂⟩
      rcases List.mem_cons.mp hm with rfl | hm₂
      · obtain ⟨y, hy, hyid⟩ := lastId_mem (x :: tl₂) (by simp)
        rw [hlast, ← hyid]
        exact Nat.le_of_lt (ha y hy).1
      · rw [hlast]
        exact ih ho₂ m hm₂

theorem ordered_take_drop (l : List Message) (n : Nat) (ho : Ordered l) :
    ∀ x ∈ l.take n, ∀ y ∈ l.drop n,
      y.id < x.id ∧ y.createdTimestamp ≤ x.createdTimestamp := by
  have hp : (l.take n ++ l.drop n).Pairwise
      (fun a b => b.id < a.id ∧ b.createdTimestamp ≤ a.createdTimestamp) := by
    rw [List.take_append_drop n l]
    exact ho
  exact (List.pairwise_append.mp hp).2.2

theorem ordered_take (l : List Message) (n : Nat) (ho : Ordered l) :
    Ordered (l.take n) :=
  List.Pairwise.sublist (List.take_sublist ..) ho

theorem ordered_drop (l : List Message) (n : Nat) (ho : Ordered l) :
    Ordered (l.drop n) :=
  List.Pairwise.sublist (List.drop_sublist ..) ho

theorem ordered_filter (l : List Message) (p : Message → Bool) (ho : Ordered l) :
    Ordered (l.filter p) :=
  List.Pairwise.sublist (List.filter_sublist ..) ho

theorem lowFilter_eq_drop (rest : List Message) (n : Nat) (ho : Ordered rest)
    (hne : rest.take n ≠ []) :
    lowFilter (lastId (rest.take n)) rest = rest.drop n := by
  have hmin : ∀ m ∈ rest.take n, lastId (rest.take n) ≤ m.id :=
    lastId_min (rest.take n) (ordered_take rest n ho)
  have hcross := ordered_take_drop rest n ho
  have hlt : ∀ y ∈ rest.drop n, y.id < lastId (rest.take n) := by
    intro y hy
    obtain ⟨x, hx, hxid⟩ := lastId_mem (rest.take n) hne
    rw [← hxid]
    exact (hcross x hx y hy).1
  set bv := lastId (rest.take n) with hbv
  conv_lhs => rw [← List.take_append_drop n rest]
  unfold lowFilter
  rw [List.filter_append, List.filter_eq_nil_iff.mpr ?hnil,
    List.filter_eq_self.mpr ?hself]
  · simp
  case hnil =>
    intro a ha
    simp only [decide_eq_true_eq]
    exact Nat.not_lt.mpr (hmin a ha)
  case hself =>
    intro a ha
    simp only [decide_eq_true_eq]
    exact hlt a ha

theorem belowFilter_lowFilter (b : Option Nat) (bv : Nat) (chan : List Message)
    (h : ∀ b₀, b = some b₀ → bv ≤ b₀) :
    lowFilter bv (belowFilter b chan) = lowFilter bv chan := by
  cases b with
  | none => rfl
  | some b₀ =>
    have hb : bv ≤ b₀ := h b₀ rfl
    show lowFilter bv (chan.filter fun m => decide (m.id < b₀)) = _
    unfold lowFilter
    rw [List.filter_filter]
    apply List.filter_congr
    intro a _
    by_cases ha : a.id < bv
    · simp [ha, Nat.lt_of_lt_of_le ha hb]
    · simp [ha]

theorem cursor_le (chan rest : List Message) (b : Option Nat) (n : Nat)
    (hr : belowFilter b chan = rest) (hne : rest.take n ≠ []) :
    ∀ b₀, b = some b₀ → lastId (rest.take n) ≤ b₀ := by
  intro b₀ hb₀
  obtain ⟨x, hx, hxid⟩ := lastId_mem (rest.take n) hne
  have hxrest : x ∈ rest := List.mem_of_mem_take hx
  rw [← hr, hb₀] at hxrest
  have := (List.mem_filter.mp hxrest).2
  rw [← hxid]
  exact Nat.le_of_lt (by simpa using this)

/-- After an iteration page `rest.take n` is processed, the messages the
next cursor selects from any version of the channel agreeing below the
cursor are exactly `rest.drop n`. -/
theorem step_restore (chan rest : List Message) (b : Option Nat) (n : Nat)
    (hr : belowFilter b chan = rest) (ho : Ordered rest) (hne : rest.take n ≠ []) :
    lowFilter (lastId (rest.take n)) chan = rest.drop n := by
  calc lowFilter (lastId (rest.take n)) chan
      = lowFilter (lastId (rest.take n)) (belowFilter b chan) :=
        (belowFilter_lowFilter b _ chan (cursor_le chan rest b n hr hne)).symm
    _ = lowFilter (lastId (rest.take n)) rest := by rw [hr]
    _ = rest.drop n := lowFilter_eq_drop rest n ho hne

/-- The number of messages below the cursor strictly decreases at every
iteration that recurses, whatever the deletions did (the deleted channel
is a filter of the previous one) and even on an unsorted history. -/
theorem step_decrease (chan rest : List Message) (b : Option Nat) (n : Nat)
    (p : Message → Bool) (hr : belowFilter b chan = rest) (hne : rest.take n ≠ []) :
    (lowFilter (lastId (rest.take n)) (chan.filter p)).length < rest.length := by
  obtain ⟨x, hx, hxid⟩ := lastId_mem (rest.take n) hne
  have hxrest : x ∈ rest := List.mem_of_mem_take hx
  have h1 : (lowFilter (lastId (rest.take n)) (chan.filter p)).length
      ≤ (lowFilter (lastId (rest.take n)) chan).length := by
    unfold lowFilter
    rw [List.filter_filter]
    exact length_filter_imp _ _ _ (fun a h => by
      simp only [Bool.and_eq_true] at h
      exact h.1)
  have h2 : lowFilter (lastId (rest.take n)) chan
      = lowFilter (lastId (rest.take n)) rest := by
    rw [← belowFilter_lowFilter b _ chan (cursor_le chan rest b n hr hne), hr]
  have h3 : (lowFilter (lastId (rest.take n)) rest).length < rest.length := by
    apply length_filter_lt rest _ x hxrest
    simp [← hxid]
  calc (lowFilter (lastId (rest.take n)) (chan.filter p)).length
      ≤ (lowFilter (lastId (rest.take n)) rest).length := by rw [← h2]; exact h1
    _ < rest.length := h3

/-! ### The loop always terminates within the supplied fuel -/

/-- Whatever the environment does and whatever the channel contents are,
the pagination loop reaches one of the source's exits (empty page, target
found, or a thrown fetch/bulk error) before exhausting a fuel exceeding
the number of messages below the cursor: the cursor strictly decreases,
so each iteration strictly shrinks that number. -/
theorem cleanUntilLoop_fuel (env : Env) (now : Int) (tid : Nat) :
    ∀ fuel (b : Option Nat) (s : S), (belowFilter b s.chan).length < fuel →
      cleanUntilLoop env now tid fuel b s ≠ none := by
  intro fuel
  induction fuel with
  | zero =>
    intro b s h
    exact absurd h (Nat.not_lt_zero _)
  | succ fuel ih =>
    intro b s hlen
    by_cases hf : env.failFetch s.fetchCount = true
    · simp [cleanUntilLoop, doFetch_err env 100 b s hf]
    · simp only [Bool.not_eq_true] at hf
      simp only [cleanUntilLoop, doFetch_ok env 100 b s hf]
      by_cases hp : (fetchPage s.chan 100 b).length = 0
      · simp [hp]
      · simp only [hp, if_false]
        by_cases ht : (fetchPage s.chan 100 b).any (fun m => m.id == tid) = true
        · simp only [ht, if_true]
          split
          · split
            · simp
            · simp
          · simp
        · simp only [ht, Bool.false_eq_true, if_false]
          cases hpd : partitionAndDelete env now (fetchPage s.chan 100 b)
              { s with trace := s.trace
                         ++ [.fetch 100 b (some (fetchPage s.chan 100 b))],
                       fetchCount := s.fetchCount + 1 } with
          | error s₃ => simp
          | ok s₃ =>
            simp only []
            apply ih
            obtain ⟨p, hchan⟩ := panD_chan_filter env now (fetchPage s.chan 100 b)
              { s with trace := s.trace
                         ++ [.fetch 100 b (some (fetchPage s.chan 100 b))],
                       fetchCount := s.fetchCount + 1 }
            rw [hpd] at hchan
            simp only [stateOf] at hchan
            rw [belowFilter_some, hchan]
            have hne : (belowFilter b s.chan).take 100 ≠ [] := by
              rw [← fetchPage_eq]
              intro hnil
              exact hp (by rw [hnil]; rfl)
            have hdec := step_decrease s.chan (belowFilter b s.chan) b 100 p rfl hne
            rw [fetchPage_eq]
            exact Nat.lt_of_lt_of_le hdec (Nat.le_of_lt_succ hlen)

/-! ### The loop on a history without the target -/

/-- Master description of the pagination loop when the target identifier
occurs nowhere below the cursor, fetches and bulk deletes never throw and
individual deletes fail arbitrarily: the loop ends normally through the
empty-fetch exit with `targetFound = false`, every aged message below the
cursor is attempted individually (whatever `failSingle` does), and
`deletedCount` grows by the whole recent population plus the successful
individual deletes. -/
theorem untilLoop_noTarget (env : Env) (now : Int) (tid : Nat)
    (hf : ∀ k, env.failFetch k = false) (hbk : ∀ k, env.failBulk k = false) :
    ∀ fuel (b : Option Nat) (s : S) (rest : List Message),
      belowFilter b s.chan = rest → Ordered rest →
      (∀ m ∈ rest, m.id ≠ tid) → rest.length < fuel →
      ∃ s₂, cleanUntilLoop env now tid fuel b s = some (.ok (false, s₂)) ∧
        singlesOf s₂.trace = singlesOf s.trace ++ rest.filter (isAged now) ∧
        s₂.deletedCount = s.deletedCount + (rest.filter (isRecent now)).length
          + ((rest.filter (isAged now)).filter (fun m => !env.failSingle m)).length ∧
        ∃ bf, s₂.trace.getLast? = some (.fetch 100 bf (some [])) := by
  intro fuel
  induction fuel with
  | zero =>
    intro b s rest hr ho hnt hlen
    exact absurd hlen (Nat.not_lt_zero _)
  | succ fuel ih =>
    intro b s rest hr ho hnt hlen
    have hpage : fetchPage s.chan 100 b = rest.take 100 := by
      rw [fetchPage_eq, hr]
    by_cases hrest : rest = []
    · subst hrest
      have hstep : cleanUntilLoop env now tid (fuel + 1) b s
          = some (.ok (false,
              { s with trace := s.trace ++ [.fetch 100 b (some [])],
                       fetchCount := s.fetchCount + 1 })) := by
        simp [cleanUntilLoop, doFetch_ok env 100 b s (hf s.fetchCount), hpage]
      refine ⟨_, hstep, ?_, ?_, ⟨b, ?_⟩⟩
      · simp [singlesOf_append, singlesOf]
      · simp
      · simp
    · have hne : rest.take 100 ≠ [] := by
        simp [List.take_eq_nil_iff, hrest]
      have hlen0 : ¬ (rest.take 100).length = 0 := by
        simpa [List.length_eq_zero] using hne
      have hany : ¬ ((rest.take 100).any (fun m => m.id == tid) = true) := by
        rw [List.any_eq_true]
        rintro ⟨m, hm, hid⟩
        exact hnt m (List.mem_of_mem_take hm) (by simpa using hid)
      rcases panD_result env now (rest.take 100)
          { s with trace := s.trace ++ [.fetch 100 b (some (rest.take 100))],
                   fetchCount := s.fetchCount + 1 } with
        ⟨s₃, hok, htr, hcnt⟩ | ⟨_, hfb, _⟩
      swap
      · exact absurd hfb (by simp [hbk])
      have hstep : cleanUntilLoop env now tid (fuel + 1) b s
          = cleanUntilLoop env now tid fuel (some (lastId (rest.take 100))) s₃ := by
        simp only [cleanUntilLoop, doFetch_ok env 100 b s (hf s.fetchCount), hpage,
          hlen0, if_false, hany, Bool.false_eq_true, hok]
      have hinv : belowFilter (some (lastId (rest.take 100))) s₃.chan
          = rest.drop 100 := by
        have h1 := panD_chanLow env now (rest.take 100)
          { s with trace := s.trace ++ [.fetch 100 b (some (rest.take 100))],
                   fetchCount := s.fetchCount + 1 }
          (lastId (rest.take 100))
          (lastId_min (rest.take 100) (ordered_take rest 100 ho))
        rw [hok] at h1
        simp only [stateOf] at h1
        rw [belowFilter_some, h1]
        exact step_restore s.chan rest b 100 hr ho hne
      obtain ⟨s₂, hloop, hsing, hcntr, hlast⟩ :=
        ih (some (lastId (rest.take 100))) s₃ (rest.drop 100) hinv
          (ordered_drop rest 100 ho)
          (fun m hm => hnt m ((List.drop_sublist ..).subset hm))
          (by
            have hd : (rest.drop 100).length < rest.length := by
              rw [List.length_drop]
              exact Nat.sub_lt (List.length_pos.mpr hrest) (by norm_num)
            omega)
      have hfil : singlesOf (if 0 < ((rest.take 100).filter (isRecent now)).length
          then [Event.bulk ((rest.take 100).filter (isRecent now)) true]
          else []) = [] := by
        split <;> rfl
      have hs3 : singlesOf s₃.trace
          = singlesOf s.trace ++ (rest.take 100).filter (isAged now) := by
        rw [htr, singlesOf_append, singlesOf_append, singlesOf_map_single, hfil]
        simp [singlesOf_append, singlesOf]
      have hc3 : s₃.deletedCount
          = s.deletedCount + ((rest.take 100).filter (isRecent now)).length
          + (((rest.take 100).filter (isAged now)).filter
              (fun m => !env.failSingle m)).length := by
        rw [hcnt]
      refine ⟨s₂, by rw [hstep]; exact hloop, ?_, ?_, hlast⟩
      · rw [hsing, hs3]
        conv_rhs => rw [← List.take_append_drop 100 rest]
        rw [List.filter_append, List.append_assoc]
      · rw [hcntr, hc3]
        have e1 : (rest.filter (isRecent now)).length
            = ((rest.take 100).filter (isRecent now)).length
            + ((rest.drop 100).filter (isRecent now)).length := by
          conv_lhs => rw [← List.take_append_drop 100 rest]
          rw [List.filter_append, List.length_append]
        have e2 : ((rest.filter (isAged now)).filter (fun m => !env.failSingle m)).length
            = (((rest.take 100).filter (isAged now)).filter
                (fun m => !env.failSingle m)).length
            + (((rest.drop 100).filter (isAged now)).filter
                (fun m => !env.failSingle m)).length := by
          conv_lhs => rw [← List.take_append_drop 100 rest]
          rw [List.filter_append, List.filter_append, List.length_append]
        omega

/-- Every message a partition-and-delete pass passes to a delete call,
bulk or individual, comes from its input set. -/
theorem panD_deletes (env : Env) (now : Int) (msgs : List Message) (s : S)
    (Q : Message → Prop) (hmsgs : ∀ m ∈ msgs, Q m)
    (h0 : ∀ m ∈ deletesOf s.trace, Q m) :
    ∀ m ∈ deletesOf (stateOf (partitionAndDelete env now msgs s)).trace, Q m := by
  rcases panD_result env now msgs s with ⟨s₂, hok, htr, _⟩ | ⟨_, _, herr⟩
  · rw [hok]
    intro m hm
    simp only [stateOf] at hm
    rw [htr, deletesOf_append, deletesOf_append, deletesOf_map_single] at hm
    rcases List.mem_append.mp hm with hm1 | hm2
    · rcases List.mem_append.mp hm1 with hm3 | hm4
      · exact h0 m hm3
      · by_cases hc : 0 < (msgs.filter (isRecent now)).length
        · simp only [hc, if_true, deletesOf, List.append_nil] at hm4
          exact hmsgs m (List.mem_of_mem_filter hm4)
        · simp [hc, deletesOf] at hm4
    · exact hmsgs m (List.mem_of_mem_filter hm2)
  · rw [herr]
    intro m hm
    simp only [stateOf] at hm
    rw [deletesOf_append] at hm
    rcases List.mem_append.mp hm with hm1 | hm2
    · exact h0 m hm1
    · simp only [deletesOf, List.append_nil] at hm2
      exact hmsgs m (List.mem_of_mem_filter hm2)

/-! ### The loop on a history containing the target -/

/-- Master safety lemma for `cleanUntilMessage` on a well-formed history
with the target message below the cursor: whatever the environment does,
every message the loop ever passes to a delete call has an identifier
strictly greater than the target's — hence is distinct from the target —
and a creation timestamp at least the target's. -/
theorem untilLoop_target (env : Env) (now : Int) (tmsg : Message) :
    ∀ fuel (b : Option Nat) (s : S) (rest : List Message),
      belowFilter b s.chan = rest → Ordered rest → tmsg ∈ rest →
      (∀ m ∈ deletesOf s.trace,
        tmsg.id < m.id ∧ tmsg.createdTimestamp ≤ m.createdTimestamp) →
      ∀ r s₂, cleanUntilLoop env now tmsg.id fuel b s = some r →
        (r = .error s₂ ∨ ∃ found, r = .ok (found, s₂)) →
        ∀ m ∈ deletesOf s₂.trace,
          tmsg.id < m.id ∧ tmsg.createdTimestamp ≤ m.createdTimestamp := by
  intro fuel
  induction fuel with
  | zero =>
    intro b s rest hr ho htm hQ r s₂ hloop hr2
    simp [cleanUntilLoop] at hloop
  | succ fuel ih =>
    intro b s rest hr ho htm hQ r s₂ hloop hr2
    have hpage : fetchPage s.chan 100 b = rest.take 100 := by
      rw [fetchPage_eq, hr]
    have hQfetch : ∀ (ev : Event) (tr : List Event),
        (∀ m ∈ deletesOf tr, tmsg.id < m.id ∧ tmsg.createdTimestamp ≤ m.createdTimestamp) →
        deletesOf (tr ++ [ev]) = deletesOf tr ∨ True := fun _ _ _ => Or.inr trivial
    by_cases hff : env.failFetch s.fetchCount = true
    · simp only [cleanUntilLoop, doFetch_err env 100 b s hff] at hloop
      have hre := Option.some.inj hloop
      rcases hr2 with rfl | ⟨found, rfl⟩
      · cases hre
        intro m hm
        rw [deletesOf_append] at hm
        rcases List.mem_append.mp hm with hm1 | hm2
        · exact hQ m hm1
        · simp [deletesOf] at hm2
      · cases hre
    · simp only [Bool.not_eq_true] at hff
      by_cases hemp : (rest.take 100).length = 0
      · simp only [cleanUntilLoop, doFetch_ok env 100 b s hff, hpage, hemp,
          if_true] at hloop
        have hre := Option.some.inj hloop
        rcases hr2 with rfl | ⟨found, rfl⟩
        · cases hre
        · cases hre
          intro m hm
          rw [deletesOf_append] at hm
          rcases List.mem_append.mp hm with hm1 | hm2
          · exact hQ m hm1
          · simp [deletesOf] at hm2
      · have hQ1 : ∀ m ∈ deletesOf (s.trace
            ++ [Event.fetch 100 b (some (rest.take 100))]),
            tmsg.id < m.id ∧ tmsg.createdTimestamp ≤ m.createdTimestamp := by
          intro m hm
          rw [deletesOf_append] at hm
          rcases List.mem_append.mp hm with hm1 | hm2
          · exact hQ m hm1
          · simp [deletesOf] at hm2
        by_cases hany : (rest.take 100).any (fun m => m.id == tmsg.id) = true
        · -- target present in the page: the found branch
          have hfind : (rest.take 100).find? (fun m => m.id == tmsg.id)
              = some tmsg := by
            cases hf2 : (rest.take 100).find? (fun m => m.id == tmsg.id) with
            | none =>
              rw [List.find?_eq_none] at hf2
              rw [List.any_eq_true] at hany
              obtain ⟨x, hx, hpx⟩ := hany
              exact absurd hpx (hf2 x hx)
            | some x =>
              have hxmem : x ∈ rest.take 100 := List.mem_of_find?_eq_some hf2
              have hxid : x.id = tmsg.id := by simpa using List.find?_some hf2
              have hxrest : x ∈ rest := List.mem_of_mem_take hxmem
              have hx : x = tmsg := by
                rcases pairwise_mem_rel ho hxrest htm with h | h | h
                · exact h
                · exact absurd hxid (by omega)
                · exact absurd hxid (by omega)
              rw [hx]
          simp only [cleanUntilLoop, doFetch_ok env 100 b s hff, hpage, hemp,
            if_false, hany, if_true, hfind, Option.getD_some] at hloop
          have hQdel : ∀ m ∈ (rest.take 100).filter (fun m =>
              !(m.id == tmsg.id)
                && decide (tmsg.createdTimestamp < m.createdTimestamp)),
              tmsg.id < m.id ∧ tmsg.createdTimestamp ≤ m.createdTimestamp := by
            intro m hm
            have hmem := List.mem_of_mem_filter hm
            have hmrest : m ∈ rest := List.mem_of_mem_take hmem
            have hpred := List.of_mem_filter hm
            simp only [Bool.and_eq_true, decide_eq_true_eq] at hpred
            rcases pairwise_mem_rel ho hmrest htm with h | h | h
            · subst h
              exact absurd hpred.2 (lt_irrefl _)
            · exact ⟨h.1, le_of_lt hpred.2⟩
            · exact absurd hpred.2 (not_lt.mpr h.2)
          by_cases htd : 0 < ((rest.take 100).filter (fun m =>
              !(m.id == tmsg.id)
                && decide (tmsg.createdTimestamp < m.createdTimestamp))).length
          · simp only [htd, if_true] at hloop
            cases hpd : partitionAndDelete env now
                ((rest.take 100).filter (fun m => !(m.id == tmsg.id)
                  && decide (tmsg.createdTimestamp < m.createdTimestamp)))
                { s with trace := s.trace
                           ++ [.fetch 100 b (some (rest.take 100))],
                         fetchCount := s.fetchCount + 1 } with
            | error s₃ =>
              rw [hpd] at hloop
              have hre := Option.some.inj hloop
              have hQ3 := panD_deletes env now _
                { s with trace := s.trace ++ [.fetch 100 b (some (rest.take 100))],
                         fetchCount := s.fetchCount + 1 }
                _ hQdel hQ1
              rw [hpd] at hQ3
              simp only [stateOf] at hQ3
              rcases hr2 with rfl | ⟨found, rfl⟩
              · cases hre
                exact hQ3
              · cases hre
            | ok s₃ =>
              rw [hpd] at hloop
              have hre := Option.some.inj hloop
              have hQ3 := panD_deletes env now _
                { s with trace := s.trace ++ [.fetch 100 b (some (rest.take 100))],
                         fetchCount := s.fetchCount + 1 }
                _ hQdel hQ1
              rw [hpd] at hQ3
              simp only [stateOf] at hQ3
              rcases hr2 with rfl | ⟨found, rfl⟩
              · cases hre
              · cases hre
                exact hQ3
          · simp only [htd, if_false] at hloop
            have hre := Option.some.inj hloop
            rcases hr2 with rfl | ⟨found, rfl⟩
            · cases hre
            · cases hre
              exact hQ1
        · -- target not in the page: the whole page is strictly newer
          have hQpage : ∀ m ∈ rest.take 100,
              tmsg.id < m.id ∧ tmsg.createdTimestamp ≤ m.createdTimestamp := by
            have htnotin : tmsg ∈ rest.drop 100 := by
              rcases List.mem_append.mp
                  (by rw [List.take_append_drop 100 rest]; exact htm) with h | h
              · exfalso
                rw [List.any_eq_true] at hany
                exact hany ⟨tmsg, h, by simp⟩
              · exact h
            intro m hm
            exact ordered_take_drop rest 100 ho m hm tmsg htnotin
          simp only [cleanUntilLoop, doFetch_ok env 100 b s hff, hpage, hemp,
            if_false, hany, Bool.false_eq_true] at hloop
          cases hpd : partitionAndDelete env now (rest.take 100)
              { s with trace := s.trace ++ [.fetch 100 b (some (rest.take 100))],
                       fetchCount := s.fetchCount + 1 } with
          | error s₃ =>
            rw [hpd] at hloop
            have hre := Option.some.inj hloop
            have hQ3 := panD_deletes env now _
              { s with trace := s.trace ++ [.fetch 100 b (some (rest.take 100))],
                         fetchCount := s.fetchCount + 1 }
              _ hQpage hQ1
            rw [hpd] at hQ3
            simp only [stateOf] at hQ3
            rcases hr2 with rfl | ⟨found, rfl⟩
            · cases hre
              exact hQ3
            · cases hre
          | ok s₃ =>
            rw [hpd] at hloop
            have hQ3 := panD_deletes env now _
              { s with trace := s.trace ++ [.fetch 100 b (some (rest.take 100))],
                         fetchCount := s.fetchCount + 1 }
              _ hQpage hQ1
            rw [hpd] at hQ3
            simp only [stateOf] at hQ3
            have hne : rest.take 100 ≠ [] := by
              intro hnil
              exact hemp (by rw [hnil]; rfl)
            have hinv : belowFilter (some (lastId (rest.take 100))) s₃.chan
                = rest.drop 100 := by
              have h1 := panD_chanLow env now (rest.take 100)
                { s with trace := s.trace ++ [.fetch 100 b (some (rest.take 100))],
                         fetchCount := s.fetchCount + 1 }
                (lastId (rest.take 100))
                (lastId_min (rest.take 100) (ordered_take rest 100 ho))
              rw [hpd] at h1
              simp only [stateOf] at h1
              rw [belowFilter_some, h1]
              exact step_restore s.chan rest b 100 hr ho hne
            have htdrop : tmsg ∈ rest.drop 100 := by
              rcases List.mem_append.mp
                  (by rw [List.take_append_drop 100 rest]; exact htm) with h | h
              · exact absurd (hQpage tmsg h).1 (lt_irrefl _)
              · exact h
            exact ih (some (lastId (rest.take 100))) s₃ (rest.drop 100) hinv
              (ordered_drop rest 100 ho) htdrop hQ3 r s₂ hloop hr2

/-! ### Further projections of a partition-and-delete pass -/

theorem panD_fetchSeq (env : Env) (now : Int) (msgs : List Message) (s : S) :
    fetchSeq (stateOf (partitionAndDelete env now msgs s)).trace
      = fetchSeq s.trace := by
  obtain ⟨Δ, hΔ, hf⟩ := panD_trace_extend env now msgs s
  rw [hΔ, fetchSeq_append, hf, List.append_nil]

theorem panD_bulksOf (env : Env) (now : Int) (msgs : List Message) (s : S) :
    bulksOf (stateOf (partitionAndDelete env now msgs s)).trace
      = bulksOf s.trace
        ++ (if 0 < (msgs.filter (isRecent now)).length
            then [msgs.filter (isRecent now)] else []) := by
  rcases panD_result env now msgs s with ⟨s₂, hok, htr, _⟩ | ⟨hr, _, herr⟩
  · rw [hok]
    simp only [stateOf]
    rw [htr, bulksOf_append, bulksOf_append, bulksOf_map_single, List.append_nil]
    congr 1
    split <;> rfl
  · rw [herr]
    simp only [stateOf]
    rw [bulksOf_append]
    simp only [hr, if_true]
    rfl

theorem panD_singlesOf_ok (env : Env) (now : Int) (msgs : List Message)
    (s s₂ : S) (h : partitionAndDelete env now msgs s = .ok s₂) :
    singlesOf s₂.trace = singlesOf s.trace ++ msgs.filter (isAged now) := by
  rcases panD_result env now msgs s with ⟨s₃, hok, htr, _⟩ | ⟨_, _, herr⟩
  · rw [h] at hok
    cases hok
    rw [htr, singlesOf_append, singlesOf_append, singlesOf_map_single]
    have hfil : singlesOf (if 0 < (msgs.filter (isRecent now)).length
        then [Event.bulk (msgs.filter (isRecent now)) true] else []) = [] := by
      split <;> rfl
    rw [hfil, List.append_nil]
  · rw [h] at herr
    cases herr

theorem panD_singlesOf_err (env : Env) (now : Int) (msgs : List Message)
    (s s₂ : S) (h : partitionAndDelete env now msgs s = .error s₂) :
    singlesOf s₂.trace = singlesOf s.trace := by
  rcases panD_result env now msgs s with ⟨s₃, hok, _, _⟩ | ⟨_, _, herr⟩
  · rw [h] at hok
    cases hok
  · rw [h] at herr
    cases herr
    rw [singlesOf_append]
    simp [singlesOf]

theorem panD_count_err (env : Env) (now : Int) (msgs : List Message)
    (s s₂ : S) (h : partitionAndDelete env now msgs s = .error s₂) :
    s₂.deletedCount = s.deletedCount := by
  rcases panD_result env now msgs s with ⟨s₃, hok, _, _⟩ | ⟨_, _, herr⟩
  · rw [h] at hok
    cases hok
  · rw [h] at herr
    cases herr
    rfl

theorem panD_count_ok (env : Env) (now : Int) (msgs : List Message)
    (s s₂ : S) (h : partitionAndDelete env now msgs s = .ok s₂) :
    s₂.deletedCount = s.deletedCount + (msgs.filter (isRecent now)).length
      + ((msgs.filter (isAged now)).filter (fun m => !env.failSingle m)).length := by
  rcases panD_result env now msgs s with ⟨s₃, hok, _, hcnt⟩ | ⟨_, _, herr⟩
  · rw [h] at hok
    cases hok
    exact hcnt
  · rw [h] at herr
    cases herr

/-! ### Cursor adjacency of the pagination loop -/

theorem chain_snoc (F : List (Option Nat × Option (List Message)))
    (b : Option Nat) (res : Option (List Message))
    (hc : F.Chain' fetchStep)
    (hext : ∀ x, F.getLast? = some x → fetchStep x (b, res)) :
    (F ++ [(b, res)]).Chain' fetchStep := by
  rw [List.chain'_append]
  refine ⟨hc, List.chain'_singleton _, ?_⟩
  intro x hx y hy
  simp only [List.head?_cons, Option.mem_def, Option.some.injEq] at hy
  subst hy
  exact hext x hx

/-- Whatever the environment and channel contents, consecutive fetches of
the pagination loop are chained by `fetchStep`: every cursor after the
first is the oldest identifier of the page the previous fetch returned —
the cursor is fixed from the fetched page, before and independently of
that iteration's deletions. -/
theorem untilLoop_adj (env : Env) (now : Int) (tid : Nat) :
    ∀ fuel (b : Option Nat) (s : S),
      (fetchSeq s.trace).Chain' fetchStep →
      (∀ x, (fetchSeq s.trace).getLast? = some x →
        ∃ p, x.2 = some p ∧ p ≠ [] ∧ b = some (lastId p)) →
      ∀ r s₂, cleanUntilLoop env now tid fuel b s = some r →
        (r = .error s₂ ∨ ∃ found, r = .ok (found, s₂)) →
        (fetchSeq s₂.trace).Chain' fetchStep := by
  intro fuel
  induction fuel with
  | zero =>
    intro b s hc hext r s₂ hloop hr2
    simp [cleanUntilLoop] at hloop
  | succ fuel ih =>
    intro b s hc hext r s₂ hloop hr2
    have hsnoc : ∀ res, (fetchSeq (s.trace ++ [Event.fetch 100 b res])).Chain'
        fetchStep := by
      intro res
      rw [fetchSeq_append]
      show (fetchSeq s.trace ++ [(b, res)]).Chain' fetchStep
      exact chain_snoc _ b res hc (fun x hx => hext x hx)
    by_cases hff : env.failFetch s.fetchCount = true
    · simp only [cleanUntilLoop, doFetch_err env 100 b s hff] at hloop
      have hre := Option.some.inj hloop
      rcases hr2 with rfl | ⟨found, rfl⟩
      · cases hre
        exact hsnoc none
      · cases hre
    · simp only [Bool.not_eq_true] at hff
      simp only [cleanUntilLoop, doFetch_ok env 100 b s hff] at hloop
      set page := fetchPage s.chan 100 b with hpagedef
      by_cases hemp : page.length = 0
      · simp only [hemp, if_true] at hloop
        have hre := Option.some.inj hloop
        rcases hr2 with rfl | ⟨found, rfl⟩
        · cases hre
        · cases hre
          exact hsnoc (some page)
      · simp only [hemp, if_false] at hloop
        have hQ1 := hsnoc (some page)
        by_cases hany : page.any (fun m => m.id == tid) = true
        · simp only [hany, if_true] at hloop
          set toDel := page.filter (fun m => !(m.id == tid)
              && decide ((((page.find? (fun m => m.id == tid)).getD
                   (⟨0, 0⟩ : Message)).createdTimestamp) < m.createdTimestamp))
            with htoDel
          by_cases htd : 0 < toDel.length
          · simp only [htd, if_true] at hloop
            cases hpd : partitionAndDelete env now toDel
                { s with trace := s.trace ++ [.fetch 100 b (some page)],
                         fetchCount := s.fetchCount + 1 } with
            | error s₃ =>
              rw [hpd] at hloop
              have hre := Option.some.inj hloop
              have hfs := panD_fetchSeq env now toDel
                { s with trace := s.trace ++ [.fetch 100 b (some page)],
                         fetchCount := s.fetchCount + 1 }
              rw [hpd] at hfs
              simp only [stateOf] at hfs
              rcases hr2 with rfl | ⟨found, rfl⟩
              · cases hre
                rw [hfs]
                exact hQ1
              · cases hre
            | ok s₃ =>
              rw [hpd] at hloop
              have hre := Option.some.inj hloop
              have hfs := panD_fetchSeq env now toDel
                { s with trace := s.trace ++ [.fetch 100 b (some page)],
                         fetchCount := s.fetchCount + 1 }
              rw [hpd] at hfs
              simp only [stateOf] at hfs
              rcases hr2 with rfl | ⟨found, rfl⟩
              · cases hre
              · cases hre
                rw [hfs]
                exact hQ1
          · simp only [htd, if_false] at hloop
            have hre := Option.some.inj hloop
            rcases hr2 with rfl | ⟨found, rfl⟩
            · cases hre
            · cases hre
              exact hQ1
        · simp only [hany, Bool.false_eq_true, if_false] at hloop
          cases hpd : partitionAndDelete env now page
              { s with trace := s.trace ++ [.fetch 100 b (some page)],
                       fetchCount := s.fetchCount + 1 } with
          | error s₃ =>
            rw [hpd] at hloop
            have hre := Option.some.inj hloop
            have hfs := panD_fetchSeq env now page
              { s with trace := s.trace ++ [.fetch 100 b (some page)],
                       fetchCount := s.fetchCount + 1 }
            rw [hpd] at hfs
            simp only [stateOf] at hfs
            rcases hr2 with rfl | ⟨found, rfl⟩
            · cases hre
              rw [hfs]
              exact hQ1
            · cases hre
          | ok s₃ =>
            rw [hpd] at hloop
            have hfs := panD_fetchSeq env now page
              { s with trace := s.trace ++ [.fetch 100 b (some page)],
                       fetchCount := s.fetchCount + 1 }
            rw [hpd] at hfs
            simp only [stateOf] at hfs
            apply ih (some (lastId page)) s₃ ?_ ?_ r s₂ hloop hr2
            · rw [hfs]
              exact hQ1
            · intro x hx
              rw [hfs, fetchSeq_append] at hx
              have : (fetchSeq s.trace ++ fetchSeq [Event.fetch 100 b (some page)]).getLast?
                  = some ((b, some page)) := by
                show (fetchSeq s.trace ++ [(b, some page)]).getLast? = _
                simp
              rw [this] at hx
              cases hx
              refine ⟨page, rfl, ?_, rfl⟩
              intro hnil
              exact hemp (by rw [hnil]; rfl)

/-! ### Age discipline of every delete call -/

theorem panD_ageOK (env : Env) (now : Int) (msgs : List Message) (s : S)
    (h0 : ∀ e ∈ s.trace, eventAgeOK now e) :
    ∀ e ∈ (stateOf (partitionAndDelete env now msgs s)).trace,
      eventAgeOK now e := by
  apply panD_events env now msgs s (eventAgeOK now) ?_ ?_ h0
  · intro ok
    show ∀ m ∈ msgs.filter (isRecent now), now - twoWeeksMs < m.createdTimestamp
    intro m hm
    exact ((mem_recent_iff now msgs m).mp hm).2
  · intro m hm ok
    show m.createdTimestamp ≤ now - twoWeeksMs
    exact ((mem_aged_iff now msgs m).mp hm).2

theorem ageOK_snoc_fetch (now : Int) (tr : List Event) (limit : Nat)
    (b : Option Nat) (res : Option (List Message))
    (h0 : ∀ e ∈ tr, eventAgeOK now e) :
    ∀ e ∈ tr ++ [Event.fetch limit b res], eventAgeOK now e := by
  intro e he
  rcases List.mem_append.mp he with h1 | h2
  · exact h0 e h1
  · rcases List.mem_singleton.mp h2 with rfl
    trivial

theorem untilLoop_ageOK (env : Env) (now : Int) (tid : Nat) :
    ∀ fuel (b : Option Nat) (s : S), (∀ e ∈ s.trace, eventAgeOK now e) →
      ∀ r s₂, cleanUntilLoop env now tid fuel b s = some r →
        (r = .error s₂ ∨ ∃ found, r = .ok (found, s₂)) →
        ∀ e ∈ s₂.trace, eventAgeOK now e := by
  intro fuel
  induction fuel with
  | zero =>
    intro b s h0 r s₂ hloop hr2
    simp [cleanUntilLoop] at hloop
  | succ fuel ih =>
    intro b s h0 r s₂ hloop hr2
    by_cases hff : env.failFetch s.fetchCount = true
    · simp only [cleanUntilLoop, doFetch_err env 100 b s hff] at hloop
      have hre := Option.some.inj hloop
      rcases hr2 with rfl | ⟨found, rfl⟩
      · cases hre
        exact ageOK_snoc_fetch now s.trace 100 b none h0
      · cases hre
    · simp only [Bool.not_eq_true] at hff
      simp only [cleanUntilLoop, doFetch_ok env 100 b s hff] at hloop
      set page := fetchPage s.chan 100 b with hpagedef
      have h1 := ageOK_snoc_fetch now s.trace 100 b (some page) h0
      by_cases hemp : page.length = 0
      · simp only [hemp, if_true] at hloop
        have hre := Option.some.inj hloop
        rcases hr2 with rfl | ⟨found, rfl⟩
        · cases hre
        · cases hre
          exact h1
      · simp only [hemp, if_false] at hloop
        by_cases hany : page.any (fun m => m.id == tid) = true
        · simp only [hany, if_true] at hloop
          set toDel := page.filter (fun m => !(m.id == tid)
              && decide ((((page.find? (fun m => m.id == tid)).getD
                   (⟨0, 0⟩ : Message)).createdTimestamp) < m.createdTimestamp))
            with htoDel
          by_cases htd : 0 < toDel.length
          · simp only [htd, if_true] at hloop
            cases hpd : partitionAndDelete env now toDel
                { s with trace := s.trace ++ [.fetch 100 b (some page)],
                         fetchCount := s.fetchCount + 1 } with
            | error s₃ =>
              rw [hpd] at hloop
              have hre := Option.some.inj hloop
              have hchk := panD_ageOK env now toDel
                { s with trace := s.trace ++ [.fetch 100 b (some page)],
                         fetchCount := s.fetchCount + 1 } h1
              rw [hpd] at hchk
              simp only [stateOf] at hchk
              rcases hr2 with rfl | ⟨found, rfl⟩
              · cases hre
                exact hchk
              · cases hre
            | ok s₃ =>
              rw [hpd] at hloop
              have hre := Option.some.inj hloop
              have hchk := panD_ageOK env now toDel
                { s with trace := s.trace ++ [.fetch 100 b (some page)],
                         fetchCount := s.fetchCount + 1 } h1
              rw [hpd] at hchk
              simp only [stateOf] at hchk
              rcases hr2 with rfl | ⟨found, rfl⟩
              · cases hre
              · cases hre
                exact hchk
          · simp only [htd, if_false] at hloop
            have hre := Option.some.inj hloop
            rcases hr2 with rfl | ⟨found, rfl⟩
            · cases hre
            · cases hre
              exact h1
        · simp only [hany, Bool.false_eq_true, if_false] at hloop
          cases hpd : partitionAndDelete env now page
              { s with trace := s.trace ++ [.fetch 100 b (some page)],
                       fetchCount := s.fetchCount + 1 } with
          | error s₃ =>
            rw [hpd] at hloop
            have hre := Option.some.inj hloop
            have hchk := panD_ageOK env now page
              { s with trace := s.trace ++ [.fetch 100 b (some page)],
                       fetchCount := s.fetchCount + 1 } h1
            rw [hpd] at hchk
            simp only [stateOf] at hchk
            rcases hr2 with rfl | ⟨found, rfl⟩
            · cases hre
              exact hchk
            · cases hre
          | ok s₃ =>
            rw [hpd] at hloop
            have hchk := panD_ageOK env now page
              { s with trace := s.trace ++ [.fetch 100 b (some page)],
                       fetchCount := s.fetchCount + 1 } h1
            rw [hpd] at hchk
            simp only [stateOf] at hchk
            exact ih (some (lastId page)) s₃ hchk r s₂ hloop hr2

theorem cleanMessagesBody_ageOK (env : Env) (now : Int) (amount : Nat) (s : S)
    (h0 : ∀ e ∈ s.trace, eventAgeOK now e) :
    ∀ e ∈ (stateOf (cleanMessagesBody env now amount s)).trace,
      eventAgeOK now e := by
  unfold cleanMessagesBody
  by_cases hff : env.failFetch s.fetchCount = true
  · rw [doFetch_err env amount none s hff]
    exact ageOK_snoc_fetch now s.trace amount none none h0
  · simp only [Bool.not_eq_true] at hff
    rw [doFetch_ok env amount none s hff]
    exact panD_ageOK env now _ _
      (ageOK_snoc_fetch now s.trace amount none
        (some (fetchPage s.chan amount none)) h0)

theorem cleanMessages_ageOK (env : Env) (now : Int) (chan : List Message)
    (amount : Nat) :
    ∀ e ∈ (cleanMessages env now chan amount).2.trace, eventAgeOK now e := by
  have h := cleanMessagesBody_ageOK env now amount (initS chan)
    (by intro e he; cases he)
  unfold cleanMessages
  cases hb : cleanMessagesBody env now amount (initS chan) with
  | ok s =>
    rw [hb] at h
    simpa [stateOf] using h
  | error s =>
    rw [hb] at h
    simpa [stateOf] using h

theorem ageOK_split (now : Int) (tr : List Event)
    (h : ∀ e ∈ tr, eventAgeOK now e) :
    (∀ l ∈ bulksOf tr, ∀ m ∈ l, now - twoWeeksMs < m.createdTimestamp) ∧
    (∀ m ∈ singlesOf tr, m.createdTimestamp ≤ now - twoWeeksMs) := by
  induction tr with
  | nil =>
    constructor
    · intro l hl
      cases hl
    · intro m hm
      cases hm
  | cons e tl ih =>
    have htl := ih (fun x hx => h x (List.mem_cons_of_mem e hx))
    have he := h e (List.mem_cons_self ..)
    cases e with
    | fetch limit b res =>
      exact ⟨fun l hl => htl.1 l hl, fun m hm => htl.2 m hm⟩
    | bulk msgs ok =>
      refine ⟨?_, fun m hm => htl.2 m hm⟩
      intro l hl
      rcases List.mem_cons.mp hl with rfl | hl₂
      · exact he
      · exact htl.1 l hl₂
    | single m ok =>
      refine ⟨fun l hl => htl.1 l hl, ?_⟩
      intro x hx
      rcases List.mem_cons.mp hx with rfl | hx₂
      · exact he
      · exact htl.2 x hx₂

theorem cleanUntil_ageOK (env : Env) (now : Int) (chan : List Message)
    (tid : Nat) :
    ∀ e ∈ (cleanUntilMessage env now chan tid).2.trace, eventAgeOK now e := by
  have h0 : ∀ e ∈ (initS chan).trace, eventAgeOK now e := by
    intro e he
    simp [initS] at he
  cases hl : cleanUntilLoop env now tid (chan.length + 1) none (initS chan) with
  | none =>
    simp only [cleanUntilMessage, hl]
    exact h0
  | some r =>
    cases r with
    | error s₂ =>
      simp only [cleanUntilMessage, hl]
      exact untilLoop_ageOK env now tid (chan.length + 1) none (initS chan)
        h0 (.error s₂) s₂ hl (Or.inl rfl)
    | ok p =>
      obtain ⟨found, s₂⟩ := p
      simp only [cleanUntilMessage, hl]
      exact untilLoop_ageOK env now tid (chan.length + 1) none (initS chan)
        h0 (.ok (found, s₂)) s₂ hl (Or.inr ⟨found, rfl⟩)

/-- The first platform call `cleanMessages` issues is always the fetch
with the caller's `amount` as the page limit — no validation precedes it. -/
theorem cleanMessagesBody_trace (env : Env) (now : Int) (amount : Nat) (s : S) :
    ∃ res Δ, (stateOf (cleanMessagesBody env now amount s)).trace
      = s.trace ++ [Event.fetch amount none res] ++ Δ := by
  unfold cleanMessagesBody
  by_cases hff : env.failFetch s.fetchCount = true
  · rw [doFetch_err env amount none s hff]
    exact ⟨none, [], by simp [stateOf]⟩
  · simp only [Bool.not_eq_true] at hff
    rw [doFetch_ok env amount none s hff]
    obtain ⟨Δ, hΔ, _⟩ := panD_trace_extend env now (fetchPage s.chan amount none)
      { s with trace := s.trace
                 ++ [Event.fetch amount none (some (fetchPage s.chan amount none))],
               fetchCount := s.fetchCount + 1 }
    refine ⟨some (fetchPage s.chan amount none), Δ, ?_⟩
    show (stateOf (partitionAndDelete env now (fetchPage s.chan amount none)
      { s with trace := s.trace
                 ++ [Event.fetch amount none (some (fetchPage s.chan amount none))],
               fetchCount := s.fetchCount + 1 })).trace = _
    rw [hΔ, List.append_assoc]

/-! ### The engine ignores the platform's bulk-delete report -/

theorem doFetch_bulkReport (env : Env) (rep : List Message → Nat) :
    doFetch { env with bulkReport := rep } = doFetch env := rfl

theorem doBulk_bulkReport (env : Env) (rep : List Message → Nat) :
    doBulk { env with bulkReport := rep } = doBulk env := rfl

theorem deleteOld_bulkReport (env : Env) (rep : List Message → Nat)
    (msgs : List Message) (s : S) :
    deleteOld { env with bulkReport := rep } msgs s = deleteOld env msgs s := by
  induction msgs generalizing s with
  | nil => rfl
  | cons m tl ih =>
    show deleteOld { env with bulkReport := rep } tl _ = _
    rw [ih]
    rfl

theorem panD_bulkReport (env : Env) (rep : List Message → Nat) (now : Int)
    (msgs : List Message) (s : S) :
    partitionAndDelete { env with bulkReport := rep } now msgs s
      = partitionAndDelete env now msgs s := by
  simp only [partitionAndDelete, doBulk_bulkReport, deleteOld_bulkReport]

theorem cleanUntilLoop_bulkReport (env : Env) (rep : List Message → Nat)
    (now : Int) (tid : Nat) :
    ∀ fuel (b : Option Nat) (s : S),
      cleanUntilLoop { env with bulkReport := rep } now tid fuel b s
        = cleanUntilLoop env now tid fuel b s := by
  intro fuel
  induction fuel with
  | zero => intro b s; rfl
  | succ fuel ih =>
    intro b s
    have hdf : doFetch { env with bulkReport := rep } 100 b s
        = doFetch env 100 b s := by
      rw [doFetch_bulkReport]
    simp only [cleanUntilLoop, hdf]
    cases doFetch env 100 b s with
    | error s₂ => rfl
    | ok p =>
      obtain ⟨messages, s₂⟩ := p
      by_cases hemp : messages.length = 0
      · simp [hemp]
      · simp only [hemp, if_false]
        by_cases hany : messages.any (fun m => m.id == tid) = true
        · simp only [hany, if_true]
          rw [panD_bulkReport]
        · simp only [hany, Bool.false_eq_true, if_false]
          rw [panD_bulkReport]
          cases partitionAndDelete env now messages s₂ with
          | error s₃ => rfl
          | ok s₃ => exact ih _ s₃

theorem cleanMessages_bulkReport (env : Env) (rep : List Message → Nat)
    (now : Int) (chan : List Message) (amount : Nat) :
    cleanMessages { env with bulkReport := rep } now chan amount
      = cleanMessages env now chan amount := by
  unfold cleanMessages cleanMessagesBody
  rw [doFetch_bulkReport]
  cases doFetch env amount none (initS chan) with
  | error s₂ => rfl
  | ok p =>
    obtain ⟨msgs, s₂⟩ := p
    show (match partitionAndDelete { env with bulkReport := rep } now msgs s₂ with
      | .ok s => (CleanResponse.cleaned s.deletedCount, s)
      | .error s => (CleanResponse.errored, s)) = _
    rw [panD_bulkReport]

theorem cleanUntilMessage_bulkReport (env : Env) (rep : List Message → Nat)
    (now : Int) (chan : List Message) (tid : Nat) :
    cleanUntilMessage { env with bulkReport := rep } now chan tid
      = cleanUntilMessage env now chan tid := by
  unfold cleanUntilMessage
  simp only [cleanUntilLoop_bulkReport env rep now tid]

/-! ### Claim theorems -/

/-- C1 (counterexample): the claim "deleteUntilMessage never issues a
delete call for the target message itself or any message with timestamp
≤ the target's" fails on the code.  On the well-formed 101-message
history `tieHistory` that contains the target message ⟨1, 2⟩, the message
⟨2, 2⟩ — whose creation timestamp equals the target's — sits in the first
fetched page; since the target is only found on the second page, the
whole first page is bulk deleted, ⟨2, 2⟩ included, even though its
timestamp is not strictly greater than the target's. -/
theorem claim1_counterexample :
    Ordered tieHistory ∧
    (⟨1, 2⟩ : Message) ∈ tieHistory ∧
    (cleanUntilMessage envOK (twoWeeksMs + 1) tieHistory 1).1
      = .done 100 true ∧
    (⟨2, 2⟩ : Message)
      ∈ deletesOf (cleanUntilMessage envOK (twoWeeksMs + 1) tieHistory 1).2.trace ∧
    (⟨2, 2⟩ : Message).createdTimestamp ≤ (⟨1, 2⟩ : Message).createdTimestamp ∧
    (⟨2, 2⟩ : Message) ≠ (⟨1, 2⟩ : Message) := by
  refine ⟨by decide, by decide, by decide, by decide, by decide, by decide⟩

/-- C1 (amended): on a well-formed history (identifiers strictly
decreasing, timestamps weakly decreasing) containing the target message,
`cleanUntilMessage` never issues a delete call, bulk or individual, whose
argument is the target itself or any message with identifier ≤ the
target's: every deleted message has a strictly greater identifier and
hence a creation timestamp ≥ the target's.  (Strictly-newer-by-timestamp
cannot be guaranteed across pages: a message sharing the target's exact
timestamp may be deleted from an earlier page, see the counterexample.) -/
theorem claim1_amended (env : Env) (now : Int) (chan : List Message)
    (tmsg : Message) (ho : Ordered chan) (htm : tmsg ∈ chan) :
    ∀ m ∈ deletesOf (cleanUntilMessage env now chan tmsg.id).2.trace,
      tmsg.id < m.id ∧ tmsg.createdTimestamp ≤ m.createdTimestamp := by
  cases hl : cleanUntilLoop env now tmsg.id (chan.length + 1) none (initS chan) with
  | none =>
    simp only [cleanUntilMessage, hl]
    intro m hm
    simp [initS, deletesOf] at hm
  | some r =>
    cases r with
    | error s₂ =>
      simp only [cleanUntilMessage, hl]
      exact untilLoop_target env now tmsg (chan.length + 1) none (initS chan)
        chan rfl ho htm (by intro m hm; simp [initS, deletesOf] at hm)
        (.error s₂) s₂ hl (Or.inl rfl)
    | ok p =>
      obtain ⟨found, s₂⟩ := p
      simp only [cleanUntilMessage, hl]
      exact untilLoop_target env now tmsg (chan.length + 1) none (initS chan)
        chan rfl ho htm (by intro m hm; simp [initS, deletesOf] at hm)
        (.ok (found, s₂)) s₂ hl (Or.inr ⟨found, rfl⟩)

/-- Witness for the amended C1 on a concrete history. -/
theorem claim1_witness :
    Ordered [⟨3, 30⟩, ⟨2, 20⟩, ⟨1, 10⟩] ∧
    (⟨2, 20⟩ : Message) ∈ [(⟨3, 30⟩ : Message), ⟨2, 20⟩, ⟨1, 10⟩] ∧
    ∀ m ∈ deletesOf (cleanUntilMessage envOK twoWeeksMs
        [⟨3, 30⟩, ⟨2, 20⟩, ⟨1, 10⟩] 2).2.trace,
      (2 : Nat) < m.id ∧ (20 : Int) ≤ m.createdTimestamp := by
  refine ⟨by decide, by decide, ?_⟩
  intro m hm
  exact claim1_amended envOK twoWeeksMs [⟨3, 30⟩, ⟨2, 20⟩, ⟨1, 10⟩] ⟨2, 20⟩
    (by decide) (by decide) m hm

/-- C2: on a well-formed history that nowhere carries the target
identifier, with fault-free platform calls, `deleteUntilMessage`
terminates through the empty-fetch exit (the last platform call of its
trace is a fetch returning the empty page), reports `targetFound = false`
and reports a `deletedCount` equal to the number of messages of the whole
history — every message encountered across all fetched pages. -/
theorem claim2 (env : Env) (now : Int) (chan : List Message) (tid : Nat)
    (hf : ∀ k, env.failFetch k = false) (hb : ∀ k, env.failBulk k = false)
    (hd : ∀ m, env.failSingle m = false)
    (ho : Ordered chan) (hnt : ∀ m ∈ chan, m.id ≠ tid) :
    (cleanUntilMessage env now chan tid).1 = .done chan.length false ∧
    ∃ bf, ((cleanUntilMessage env now chan tid).2.trace).getLast?
      = some (.fetch 100 bf (some [])) := by
  obtain ⟨s₂, hloop, hsing, hcnt, hlast⟩ := untilLoop_noTarget env now tid hf hb
    (chan.length + 1) none (initS chan) chan rfl ho hnt (Nat.lt_succ_self _)
  have hcount : s₂.deletedCount = chan.length := by
    rw [hcnt]
    have hfd : (chan.filter (isAged now)).filter (fun m => !env.failSingle m)
        = chan.filter (isAged now) := by
      apply List.filter_eq_self.mpr
      intro a _
      rw [hd a]
      rfl
    rw [hfd]
    show 0 + _ + _ = _
    rw [Nat.zero_add]
    exact length_recent_add_aged now chan
  constructor
  · simp only [cleanUntilMessage, hloop]
    rw [hcount]
  · simp only [cleanUntilMessage, hloop]
    exact hlast

/-- Witness for C2 on a concrete three-message history without the
target. -/
theorem claim2_witness :
    (cleanUntilMessage envOK twoWeeksMs [⟨3, 30⟩, ⟨2, 20⟩, ⟨1, 10⟩] 99).1
      = .done 3 false ∧
    ∃ bf, ((cleanUntilMessage envOK twoWeeksMs
        [⟨3, 30⟩, ⟨2, 20⟩, ⟨1, 10⟩] 99).2.trace).getLast?
      = some (.fetch 100 bf (some [])) :=
  claim2 envOK twoWeeksMs [⟨3, 30⟩, ⟨2, 20⟩, ⟨1, 10⟩] 99
    (fun _ => rfl) (fun _ => rfl) (fun _ => rfl) (by decide) (by decide)

/-- C3 (counterexample): the claim that `deleteRecentMessages` itself
re-validates `amount` and fails with `InvalidArgument` before any
platform call fails on the code: called with `amount = 150`, which is
outside [1,100], `cleanMessages` immediately issues the fetch — its trace
is exactly one platform fetch call with limit 150 — and its response type
has no invalid-argument outcome at all.  (Range validation happens only
in the dispatch layer, lines 71-77 and 363-367 of the source.) -/
theorem claim3_counterexample :
    ¬ (1 ≤ 150 ∧ 150 ≤ 100) ∧
    (cleanMessages envOK 0 [] 150).2.trace
      = [Event.fetch 150 none (some [])] := by
  refine ⟨by decide, by decide⟩

/-- C3 (amended): `cleanMessages` performs no validation of `amount`: for
every amount — in range or not — and every environment, the first
platform call of its trace is the fetch carrying that amount as the page
limit.  The engine trusts the caller; validation lives in the dispatch
layer only. -/
theorem claim3_amended (env : Env) (now : Int) (chan : List Message)
    (amount : Nat) :
    ∃ res, ((cleanMessages env now chan amount).2.trace).head?
      = some (Event.fetch amount none res) := by
  obtain ⟨res, Δ, htr⟩ := cleanMessagesBody_trace env now amount (initS chan)
  unfold cleanMessages
  cases hb : cleanMessagesBody env now amount (initS chan) with
  | ok s =>
    rw [hb] at htr
    simp only [stateOf] at htr
    refine ⟨res, ?_⟩
    show s.trace.head? = _
    rw [htr]
    simp [initS]
  | error s =>
    rw [hb] at htr
    simp only [stateOf] at htr
    refine ⟨res, ?_⟩
    show s.trace.head? = _
    rw [htr]
    simp [initS]

/-- C4: for every amount in [1,100] and every channel state and
environment, `deleteRecentMessages` issues at most one bulk-delete call,
at most `amount` individual-delete calls, and any deletedCount it
reports is at most `amount`. -/
theorem claim4 (env : Env) (now : Int) (chan : List Message) (amount : Nat)
    (h1 : 1 ≤ amount) (h2 : amount ≤ 100) :
    (bulksOf (cleanMessages env now chan amount).2.trace).length ≤ 1 ∧
    (singlesOf (cleanMessages env now chan amount).2.trace).length ≤ amount ∧
    (∀ n, (cleanMessages env now chan amount).1 = .cleaned n → n ≤ amount) := by
  have hplen : (fetchPage chan amount none).length ≤ amount := by
    show (List.take amount chan).length ≤ amount
    simp [List.length_take]
  unfold cleanMessages
  by_cases hff : env.failFetch 0 = true
  · have hb : cleanMessagesBody env now amount (initS chan)
        = .error ⟨chan, [Event.fetch amount none none], 0, 1, 0⟩ := by
      unfold cleanMessagesBody
      rw [doFetch_err env amount none (initS chan) hff]
      rfl
    rw [hb]
    refine ⟨?_, ?_, ?_⟩
    · show (bulksOf [Event.fetch amount none none]).length ≤ 1
      simp [bulksOf]
    · show (singlesOf [Event.fetch amount none none]).length ≤ amount
      simp [singlesOf]
    · intro n hn
      cases hn
  · simp only [Bool.not_eq_true] at hff
    have hb : cleanMessagesBody env now amount (initS chan)
        = partitionAndDelete env now (fetchPage chan amount none)
            ⟨chan, [Event.fetch amount none (some (fetchPage chan amount none))],
              0, 1, 0⟩ := by
      unfold cleanMessagesBody
      rw [doFetch_ok env amount none (initS chan) hff]
      rfl
    rw [hb]
    set s₁ : S := ⟨chan,
      [Event.fetch amount none (some (fetchPage chan amount none))], 0, 1, 0⟩
      with hs₁
    have hbulk := panD_bulksOf env now (fetchPage chan amount none) s₁
    have hb0 : bulksOf s₁.trace = [] := by
      rw [hs₁]
      rfl
    have hs0 : singlesOf s₁.trace = [] := by
      rw [hs₁]
      rfl
    cases hpd : partitionAndDelete env now (fetchPage chan amount none) s₁ with
    | error s₂ =>
      rw [hpd] at hbulk
      simp only [stateOf] at hbulk
      refine ⟨?_, ?_, ?_⟩
      · rw [hbulk, hb0]
        split <;> simp
      · rw [panD_singlesOf_err env now _ s₁ s₂ hpd, hs0]
        simp
      · intro n hn
        cases hn
    | ok s₂ =>
      rw [hpd] at hbulk
      simp only [stateOf] at hbulk
      refine ⟨?_, ?_, ?_⟩
      · rw [hbulk, hb0]
        split <;> simp
      · rw [panD_singlesOf_ok env now _ s₁ s₂ hpd, hs0]
        simp only [List.nil_append]
        exact le_trans (List.length_filter_le ..) hplen
      · intro n hn
        have hn2 : n = s₂.deletedCount := by
          cases hn
          rfl
        subst hn2
        rw [panD_count_ok env now _ s₁ s₂ hpd]
        have hc0 : s₁.deletedCount = 0 := by
          rw [hs₁]
        have hsum := length_recent_add_aged now (fetchPage chan amount none)
        have hle : (((fetchPage chan amount none).filter (isAged now)).filter
            (fun m => !env.failSingle m)).length
            ≤ ((fetchPage chan amount none).filter (isAged now)).length :=
          List.length_filter_le ..
        omega

/-- Witness for C4 at a concrete in-range amount. -/
theorem claim4_witness :
    (1 ≤ 2 ∧ 2 ≤ 100) ∧
    (bulksOf (cleanMessages envOK twoWeeksMs [⟨3, 30⟩, ⟨2, 20⟩, ⟨1, 10⟩] 2).2.trace).length ≤ 1 ∧
    (singlesOf (cleanMessages envOK twoWeeksMs [⟨3, 30⟩, ⟨2, 20⟩, ⟨1, 10⟩] 2).2.trace).length ≤ 2 ∧
    (∀ n, (cleanMessages envOK twoWeeksMs [⟨3, 30⟩, ⟨2, 20⟩, ⟨1, 10⟩] 2).1
      = .cleaned n → n ≤ 2) := by
  refine ⟨by decide, ?_⟩
  exact claim4 envOK twoWeeksMs [⟨3, 30⟩, ⟨2, 20⟩, ⟨1, 10⟩] 2 (by decide) (by decide)

/-- C5: in every partition-and-delete pass of both operations, whatever
the environment does, every message passed to a bulk-delete call has a
creation timestamp strictly greater than now minus 14 days, and every
message passed to an individual delete call has a creation timestamp at
or below that cutoff — the two kinds of delete calls never share a
message. -/
theorem claim5 (env : Env) (now : Int) (chan : List Message)
    (amount tid : Nat) :
    (∀ l ∈ bulksOf (cleanMessages env now chan amount).2.trace,
      ∀ m ∈ l, now - twoWeeksMs < m.createdTimestamp) ∧
    (∀ m ∈ singlesOf (cleanMessages env now chan amount).2.trace,
      m.createdTimestamp ≤ now - twoWeeksMs) ∧
    (∀ l ∈ bulksOf (cleanUntilMessage env now chan tid).2.trace,
      ∀ m ∈ l, now - twoWeeksMs < m.createdTimestamp) ∧
    (∀ m ∈ singlesOf (cleanUntilMessage env now chan tid).2.trace,
      m.createdTimestamp ≤ now - twoWeeksMs) := by
  have h1 := ageOK_split now _ (cleanMessages_ageOK env now chan amount)
  have h2 := ageOK_split now _ (cleanUntil_ageOK env now chan tid)
  exact ⟨h1.1, h1.2, h2.1, h2.2⟩

/-- C6: for every input and every behaviour of the platform calls, both
operations deliver a response to the caller — the success/completion
message or the catch-all error message, never an unhandled fault (in
particular the loop's fuel never runs out) — and when the very first
fetch throws, the delivered response is the error message. -/
theorem claim6 (env : Env) (now : Int) (chan : List Message)
    (amount tid : Nat) :
    ((cleanMessages env now chan amount).1 = .errored ∨
      ∃ n, (cleanMessages env now chan amount).1 = .cleaned n) ∧
    ((cleanUntilMessage env now chan tid).1 = .errored ∨
      ∃ n f, (cleanUntilMessage env now chan tid).1 = .done n f) ∧
    (env.failFetch 0 = true →
      (cleanMessages env now chan amount).1 = .errored ∧
      (cleanUntilMessage env now chan tid).1 = .errored) := by
  refine ⟨?_, ?_, ?_⟩
  · unfold cleanMessages
    cases cleanMessagesBody env now amount (initS chan) with
    | ok s => exact Or.inr ⟨s.deletedCount, rfl⟩
    | error s => exact Or.inl rfl
  · cases hl : cleanUntilLoop env now tid (chan.length + 1) none (initS chan) with
    | none =>
      exfalso
      apply cleanUntilLoop_fuel env now tid (chan.length + 1) none (initS chan)
        ?_ hl
      show (belowFilter none chan).length < chan.length + 1
      exact Nat.lt_succ_self _
    | some r =>
      cases r with
      | error s₂ =>
        refine Or.inl ?_
        simp only [cleanUntilMessage, hl]
      | ok p =>
        obtain ⟨found, s₂⟩ := p
        refine Or.inr ⟨s₂.deletedCount, found, ?_⟩
        simp only [cleanUntilMessage, hl]
  · intro hbad
    constructor
    · unfold cleanMessages cleanMessagesBody
      rw [doFetch_err env amount none (initS chan) hbad]
    · have hstep : cleanUntilLoop env now tid (chan.length + 1) none (initS chan)
          = some (.error { initS chan with
              trace := (initS chan).trace ++ [.fetch 100 none none],
              fetchCount := (initS chan).fetchCount + 1 }) := by
        simp [cleanUntilLoop, doFetch_err env 100 none (initS chan) hbad]
      simp only [cleanUntilMessage, hstep]

/-- Witness for C6 with a platform whose fetches always throw. -/
theorem claim6_witness :
    (cleanMessages envBadFetch 0 [] 5).1 = .errored ∧
    (cleanUntilMessage envBadFetch 0 [] 7).1 = .errored :=
  (claim6 envBadFetch 0 [] 5 7).2.2 rfl

/-- C7: an individual-delete failure never prevents later attempts: the
per-batch loop attempts every message of its list regardless of the
environment's failures, and across `deleteUntilMessage` (fetches and bulk
deletes fault-free, individual deletes failing arbitrarily) every aged
message of the whole history is still attempted individually and the
operation still completes normally. -/
theorem claim7 :
    (∀ (env : Env) (msgs : List Message) (s : S),
      singlesOf (deleteOld env msgs s).trace = singlesOf s.trace ++ msgs) ∧
    (∀ (env : Env) (now : Int) (chan : List Message) (tid : Nat),
      (∀ k, env.failFetch k = false) → (∀ k, env.failBulk k = false) →
      Ordered chan → (∀ m ∈ chan, m.id ≠ tid) →
      singlesOf (cleanUntilMessage env now chan tid).2.trace
        = chan.filter (isAged now) ∧
      ∃ n, (cleanUntilMessage env now chan tid).1 = .done n false) := by
  constructor
  · intro env msgs s
    rw [deleteOld_trace, singlesOf_append, singlesOf_map_single]
  · intro env now chan tid hf hb ho hnt
    obtain ⟨s₂, hloop, hsing, hcnt, hlast⟩ := untilLoop_noTarget env now tid hf hb
      (chan.length + 1) none (initS chan) chan rfl ho hnt (Nat.lt_succ_self _)
    constructor
    · simp only [cleanUntilMessage, hloop]
      rw [hsing]
      show singlesOf (initS chan).trace ++ _ = _
      simp [initS, singlesOf]
    · simp only [cleanUntilMessage, hloop]
      exact ⟨s₂.deletedCount, rfl⟩

/-- Witness for C7: the delete of message 2 throws, message 1 is still
attempted, in an isolated batch and across a whole run. -/
theorem claim7_witness :
    singlesOf (deleteOld envFail2 [⟨2, 5⟩, ⟨1, 3⟩] (initS [])).trace
      = [⟨2, 5⟩, ⟨1, 3⟩] ∧
    envFail2.failSingle ⟨2, 5⟩ = true ∧
    singlesOf (cleanUntilMessage envFail2 (twoWeeksMs + 10)
        [⟨2, 5⟩, ⟨1, 3⟩] 9).2.trace = [⟨2, 5⟩, ⟨1, 3⟩] := by
  refine ⟨?_, by decide, ?_⟩
  · rw [claim7.1 envFail2 [⟨2, 5⟩, ⟨1, 3⟩] (initS [])]
    decide
  · rw [(claim7.2 envFail2 (twoWeeksMs + 10) [⟨2, 5⟩, ⟨1, 3⟩] 9
      (fun _ => rfl) (fun _ => rfl) (by decide) (by decide)).1]
    decide

/-- C8: in every run of `deleteUntilMessage`, whatever the environment
does, consecutive fetch calls of the trace are chained: each fetch after
the first carries, as its `before` cursor, exactly the identifier of the
oldest message of the page returned by the previous fetch — the boundary
for the next fetch is fixed from the fetched page itself, independently
of what that iteration's deletions did. -/
theorem claim8 (env : Env) (now : Int) (chan : List Message) (tid : Nat) :
    (fetchSeq (cleanUntilMessage env now chan tid).2.trace).Chain' fetchStep := by
  cases hl : cleanUntilLoop env now tid (chan.length + 1) none (initS chan) with
  | none =>
    simp only [cleanUntilMessage, hl]
    show (fetchSeq (initS chan).trace).Chain' fetchStep
    simp [initS, fetchSeq]
  | some r =>
    cases r with
    | error s₂ =>
      simp only [cleanUntilMessage, hl]
      exact untilLoop_adj env now tid (chan.length + 1) none (initS chan)
        (by simp [initS, fetchSeq])
        (by intro x hx; simp [initS, fetchSeq] at hx)
        (.error s₂) s₂ hl (Or.inl rfl)
    | ok p =>
      obtain ⟨found, s₂⟩ := p
      simp only [cleanUntilMessage, hl]
      exact untilLoop_adj env now tid (chan.length + 1) none (initS chan)
        (by simp [initS, fetchSeq])
        (by intro x hx; simp [initS, fetchSeq] at hx)
        (.ok (found, s₂)) s₂ hl (Or.inr ⟨found, rfl⟩)

/-- C9: the recent/aged split is an exact partition decided by the strict
comparison `createdTimestamp > now - 14d`: a message whose timestamp
equals the cutoff lands in the aged bucket and not in the recent bucket —
so it is appended to the individual deletes on a completed pass and the
only list ever passed to the pass's bulk call (the recent bucket) cannot
contain it — and every message of the input falls in exactly one bucket. -/
theorem claim9 (env : Env) (now : Int) (msgs : List Message) (s : S)
    (m : Message) (hm : m ∈ msgs)
    (hts : m.createdTimestamp = now - twoWeeksMs) :
    (m ∈ msgs.filter (isAged now) ∧ m ∉ msgs.filter (isRecent now)) ∧
    (∀ x ∈ msgs,
      (x ∈ msgs.filter (isRecent now) ∧ x ∉ msgs.filter (isAged now)) ∨
      (x ∈ msgs.filter (isAged now) ∧ x ∉ msgs.filter (isRecent now))) ∧
    (∀ s₂, partitionAndDelete env now msgs s = .ok s₂ →
      singlesOf s₂.trace = singlesOf s.trace ++ msgs.filter (isAged now)) ∧
    bulksOf (stateOf (partitionAndDelete env now msgs s)).trace
      = bulksOf s.trace ++ (if 0 < (msgs.filter (isRecent now)).length
          then [msgs.filter (isRecent now)] else []) := by
  refine ⟨⟨?_, ?_⟩, ?_, panD_singlesOf_ok env now msgs s, panD_bulksOf env now msgs s⟩
  · exact (mem_aged_iff now msgs m).mpr ⟨hm, le_of_eq hts⟩
  · intro hmem
    have := ((mem_recent_iff now msgs m).mp hmem).2
    omega
  · intro x hx
    by_cases hc : now - twoWeeksMs < x.createdTimestamp
    · left
      refine ⟨(mem_recent_iff now msgs x).mpr ⟨hx, hc⟩, ?_⟩
      intro hmem
      have := ((mem_aged_iff now msgs x).mp hmem).2
      omega
    · right
      rw [not_lt] at hc
      refine ⟨(mem_aged_iff now msgs x).mpr ⟨hx, hc⟩, ?_⟩
      intro hmem
      have := ((mem_recent_iff now msgs x).mp hmem).2
      omega

/-- Witness for C9 at a message created exactly at the cutoff. -/
theorem claim9_witness :
    (⟨1, 0⟩ : Message) ∈ [(⟨1, 0⟩ : Message)].filter (isAged twoWeeksMs) ∧
    (⟨1, 0⟩ : Message) ∉ [(⟨1, 0⟩ : Message)].filter (isRecent twoWeeksMs) :=
  (claim9 envOK twoWeeksMs [⟨1, 0⟩] (initS []) ⟨1, 0⟩ (by decide) (by decide)).1

/-- C10: whenever a pass's bulk call returns without throwing, the pass
adds the FULL length of the recent bucket it passed to the call — both
operations are completely insensitive to the deletion count the platform
reports (`Env.bulkReport`): changing that report changes nothing in
either operation's result. -/
theorem claim10 :
    (∀ (env : Env) (now : Int) (msgs : List Message) (s s₂ : S),
      partitionAndDelete env now msgs s = .ok s₂ →
      s₂.deletedCount = s.deletedCount + (msgs.filter (isRecent now)).length
        + ((msgs.filter (isAged now)).filter (fun m => !env.failSingle m)).length) ∧
    (∀ (env : Env) (rep : List Message → Nat) (now : Int)
      (chan : List Message) (amount tid : Nat),
      cleanMessages { env with bulkReport := rep } now chan amount
        = cleanMessages env now chan amount ∧
      cleanUntilMessage { env with bulkReport := rep } now chan tid
        = cleanUntilMessage env now chan tid) := by
  constructor
  · exact panD_count_ok
  · intro env rep now chan amount tid
    exact ⟨cleanMessages_bulkReport env rep now chan amount,
      cleanUntilMessage_bulkReport env rep now chan tid⟩

/-- Witness for C10 on a concrete two-message pass, one recent and one
aged message: the completed pass reports both. -/
theorem claim10_witness :
    ∃ s₂, partitionAndDelete envOK twoWeeksMs [⟨2, 1⟩, ⟨1, 0⟩]
        (initS [⟨2, 1⟩, ⟨1, 0⟩]) = .ok s₂ ∧ s₂.deletedCount = 2 := by
  cases hpd : partitionAndDelete envOK twoWeeksMs [⟨2, 1⟩, ⟨1, 0⟩]
      (initS [⟨2, 1⟩, ⟨1, 0⟩]) with
  | error s =>
    exfalso
    rcases panD_result envOK twoWeeksMs [⟨2, 1⟩, ⟨1, 0⟩]
        (initS [⟨2, 1⟩, ⟨1, 0⟩]) with ⟨s₃, hok, _, _⟩ | ⟨_, hfb, _⟩
    · rw [hpd] at hok
      cases hok
    · exact absurd hfb (by decide)
  | ok s₂ =>
    refine ⟨s₂, rfl, ?_⟩
    rw [claim10.1 envOK twoWeeksMs [⟨2, 1⟩, ⟨1, 0⟩] (initS [⟨2, 1⟩, ⟨1, 0⟩]) s₂ hpd]
    decide

end DiscordCleaner
